import Mathlib

/-!
# Verification of tev's asynchronous image-ingestion pipeline

Shallow embedding of the channel/layer data model, the validation and
grouping algorithms, and the order-restoring background-load publisher of
the tev image viewer (sources: src/Image.cpp, include/tev/Channel.h).

Modelling conventions:
* C++ `float` values are modelled exactly as rationals (`ℚ`).
* C++ `std::string` is modelled as `List Char` (called `TevName` below) so
  that all string operations are structurally computable.
* Fallible reads and thrown exceptions are modelled with `Option` / `Except`.
* The thread pool's `parallelForAsync` loops write disjoint indices and are
  awaited before the result is used, so an elementwise parallel loop is
  modelled as the corresponding pure elementwise map.
-/

namespace Tev

/-- A C++ `std::string`, modelled as its character list. -/
abbrev TevName := List Char

/-- Whether the name contains a dot (`name.find(".") != npos`). -/
def hasDot (n : TevName) : Bool := n.contains '.'

/-- A single named 2D float buffer (`class Channel` in tev/Channel.h).
The Eigen row-major matrix `mData` is modelled as the row-major list
`data` together with its dimensions (`width` = cols, `height` = rows). -/
structure Channel where
  name : TevName
  width : Nat
  height : Nat
  data : List ℚ
deriving DecidableEq, Repr

instance : Inhabited Channel := ⟨⟨[], 0, 0, []⟩⟩

/-- Models `mData.size()` of a channel. -/
def Channel.count (c : Channel) : Nat := c.data.length

/-- Models `Channel::eval(DenseIndex index)`: the source guards only
`index >= mData.size()`; for a negative index it falls through to the raw
Eigen access `mData(index)`, which is an out-of-bounds read.  A defined
read yields `some v`; the undefined out-of-bounds access is `none`. -/
def Channel.evalLinear (c : Channel) (index : Int) : Option ℚ :=
  if index ≥ (c.count : Int) then some 0
  else if 0 ≤ index then some (c.data.getD index.toNat 0)
  else none

/-- Models `Channel::eval(Vector2i index)`: both coordinates are range-checked
before the row-major access `mData(x + y * cols)`. -/
def Channel.eval2D (c : Channel) (x y : Int) : Option ℚ :=
  if x < 0 ∨ x ≥ (c.width : Int) ∨ y < 0 ∨ y ≥ (c.height : Int) then some 0
  else
    let idx := x + y * (c.width : Int)
    if 0 ≤ idx ∧ idx < (c.count : Int) then some (c.data.getD idx.toNat 0)
    else none

/-- Models `Channel::divideByAsync(other)`: a pool-parallel for over the linear
index range assigning `at(i) /= other.at(i)` when `other.at(i) != 0` and
`at(i) = 0` otherwise.  Indices of the target that the loop does not
reach keep their value. -/
def Channel.divideBy (target other : Channel) : Channel :=
  { target with
    data := (List.range target.data.length).map fun i =>
      if i < other.data.length then
        (if other.data.getD i 0 ≠ 0 then target.data.getD i 0 / other.data.getD i 0 else 0)
      else target.data.getD i 0 }

/-- Models `Channel::multiplyWithAsync(other)`: elementwise `at(i) *= other.at(i)`. -/
def Channel.multiplyWith (target other : Channel) : Channel :=
  { target with
    data := (List.range target.data.length).map fun i =>
      if i < other.data.length then target.data.getD i 0 * other.data.getD i 0
      else target.data.getD i 0 }

theorem Channel.divideBy_name (t o : Channel) : (t.divideBy o).name = t.name := rfl

theorem Channel.multiplyWith_name (t o : Channel) : (t.multiplyWith o).name = t.name := rfl

theorem Channel.divideBy_length (t o : Channel) :
    (t.divideBy o).data.length = t.data.length := by
  simp [Channel.divideBy]

theorem Channel.multiplyWith_length (t o : Channel) :
    (t.multiplyWith o).data.length = t.data.length := by
  simp [Channel.multiplyWith]

theorem getD_range_map {f : Nat → ℚ} {n i : Nat} (hi : i < n) :
    ((List.range n).map f).getD i 0 = f i := by
  rw [List.getD_eq_getElem?_getD, List.getElem?_map, List.getElem?_range hi]
  rfl

theorem Channel.divideBy_getD (t o : Channel) (i : Nat) (hi : i < t.data.length) :
    (t.divideBy o).data.getD i 0 =
      if i < o.data.length then
        (if o.data.getD i 0 ≠ 0 then t.data.getD i 0 / o.data.getD i 0 else 0)
      else t.data.getD i 0 := by
  simp only [Channel.divideBy]
  exact getD_range_map hi

theorem Channel.multiplyWith_getD (t o : Channel) (i : Nat) (hi : i < t.data.length) :
    (t.multiplyWith o).data.getD i 0 =
      if i < o.data.length then t.data.getD i 0 * o.data.getD i 0
      else t.data.getD i 0 := by
  simp only [Channel.multiplyWith]
  exact getD_range_map hi

/-- C4: For every pair of equal-size channels `A` (target) and `B`
(divisor) and every linear index `i` in range, after `divideBy` completes
the result at `i` equals `B[i] == 0 ? 0 : A[i] / B[i]`: division by exactly
zero saturates to `0`, is not an error path, and (the values being exact
rationals here) produces no infinity or NaN. -/
theorem c4_divideBy_pointwise (A B : Channel) (i : Nat)
    (hsize : A.data.length = B.data.length) (hi : i < A.data.length) :
    (A.divideBy B).data.getD i 0 =
      if B.data.getD i 0 = 0 then 0 else A.data.getD i 0 / B.data.getD i 0 := by
  rw [Channel.divideBy_getD A B i hi, if_pos (hsize ▸ hi)]
  by_cases h : B.data.getD i 0 = 0
  · simp [h]
  · simp [h]

/-- Witness for C4 at a concrete input, exercising both the zero-divisor
and the nonzero-divisor branch. -/
theorem c4_divideBy_pointwise_witness :
    ((⟨['A'], 2, 1, [6, 5]⟩ : Channel).divideBy ⟨['B'], 2, 1, [3, 0]⟩).data.getD 0 0 =
      (if (⟨['B'], 2, 1, [3, 0]⟩ : Channel).data.getD 0 0 = 0 then 0
       else (⟨['A'], 2, 1, [6, 5]⟩ : Channel).data.getD 0 0 /
         (⟨['B'], 2, 1, [3, 0]⟩ : Channel).data.getD 0 0) ∧
    ((⟨['A'], 2, 1, [6, 5]⟩ : Channel).divideBy ⟨['B'], 2, 1, [3, 0]⟩).data.getD 1 0 =
      (if (⟨['B'], 2, 1, [3, 0]⟩ : Channel).data.getD 1 0 = 0 then 0
       else (⟨['A'], 2, 1, [6, 5]⟩ : Channel).data.getD 1 0 /
         (⟨['B'], 2, 1, [3, 0]⟩ : Channel).data.getD 1 0) :=
  ⟨c4_divideBy_pointwise _ _ 0 (by simp) (by simp),
   c4_divideBy_pointwise _ _ 1 (by simp) (by simp)⟩

/-- C8 counterexample: the claim asserts that every out-of-bounds point
read — negative linear indices included — returns 0 and never fails.  But
`Channel::eval(DenseIndex)` only guards `index >= mData.size()`; at the
concrete channel below, the read at linear index `-1` falls through to the
raw buffer access (an out-of-bounds read, modelled as `none`), which is
not a successful read of 0. -/
theorem c8_eval_counterexample :
    Channel.evalLinear ⟨['L'], 2, 1, [5, 7]⟩ (-1) = none ∧
    (none : Option ℚ) ≠ some 0 := by
  constructor
  · rfl
  · simp

/-- C8 (amended): a linear point read at an index past the buffer end
(the only case the source guards) returns 0; every 2-D point read outside
`[0,W)×[0,H)` — negative coordinates included — returns 0; and a linear
read at any non-negative index never fails.  (A negative linear index is
unguarded in the source and reaches the raw buffer access.) -/
theorem c8_eval_amended (c : Channel) (index x y : Int) :
    ((c.count : Int) ≤ index → c.evalLinear index = some 0) ∧
    ((x < 0 ∨ (c.width : Int) ≤ x ∨ y < 0 ∨ (c.height : Int) ≤ y) →
      c.eval2D x y = some 0) ∧
    (0 ≤ index → c.evalLinear index ≠ none) := by
  refine ⟨fun h => ?_, fun h => ?_, fun h => ?_⟩
  · simp [Channel.evalLinear, ge_iff_le, h]
  · have : x < 0 ∨ x ≥ (c.width : Int) ∨ y < 0 ∨ y ≥ (c.height : Int) := by
      rcases h with h | h | h | h
      · exact Or.inl h
      · exact Or.inr (Or.inl h)
      · exact Or.inr (Or.inr (Or.inl h))
      · exact Or.inr (Or.inr (Or.inr h))
    simp [Channel.eval2D, this]
  · by_cases hb : index ≥ (c.count : Int)
    · simp [Channel.evalLinear, hb]
    · simp [Channel.evalLinear, hb, h]

/-- Witness for C8's amended theorem at concrete inputs. -/
theorem c8_eval_amended_witness :
    Channel.evalLinear ⟨['L'], 2, 1, [5, 7]⟩ 9 = some 0 ∧
    Channel.eval2D ⟨['L'], 2, 1, [5, 7]⟩ (-3) 0 = some 0 ∧
    Channel.evalLinear ⟨['L'], 2, 1, [5, 7]⟩ 0 ≠ none :=
  ⟨(c8_eval_amended ⟨['L'], 2, 1, [5, 7]⟩ 9 (-3) 0).1 (by norm_num [Channel.count]),
   (c8_eval_amended ⟨['L'], 2, 1, [5, 7]⟩ 9 (-3) 0).2.1 (by norm_num),
   (c8_eval_amended ⟨['L'], 2, 1, [5, 7]⟩ 0 (-3) 0).2.2 (by norm_num)⟩

/-- 2-D integer vector (`Eigen::Vector2i` / `nanogui::Vector2i`). -/
structure Vec2 where
  x : Int
  y : Int
deriving DecidableEq, Repr

/-- Modelled from the spec: tev's `Box2i`-style rectangle (its header is not
among the sources): integer min/max corners with exclusive upper bound,
valid iff `max > min` on both axes, `size = max - min`. -/
structure Rectangle where
  min : Vec2
  max : Vec2
deriving DecidableEq, Repr

def Rectangle.isValid (r : Rectangle) : Bool :=
  r.max.x > r.min.x && r.max.y > r.min.y

def Rectangle.size (r : Rectangle) : Vec2 :=
  ⟨r.max.x - r.min.x, r.max.y - r.min.y⟩

/-- Modelled from the spec: assigning a size to an invalid window
("default to the first channel's size") yields the rectangle from the
origin to that size. -/
def rectOfSize (v : Vec2) : Rectangle := ⟨⟨0, 0⟩, v⟩

def Channel.size (c : Channel) : Vec2 := ⟨(c.width : Int), (c.height : Int)⟩

/-- The error taxonomy of a load/validation attempt (the C++ throws
`std::runtime_error` with a formatted message at each of these sites). -/
inductive LoadError where
  | emptyImage
  | sizeMismatch (chan : TevName) (chanSize dwSize : Vec2)
  | doubleMultiply
  | doubleDivide
  | assertionFailed
deriving DecidableEq, Repr

/-- Models `struct ImageData`: ordered channel list, ordered layer-name list, the
two windows, the premultiplied-alpha flag and an optional part name. -/
structure ImageData where
  channels : List Channel
  layers : List TevName
  dataWindow : Rectangle
  displayWindow : Rectangle
  hasPremultipliedAlpha : Bool
  partName : TevName
deriving DecidableEq, Repr

def ImageData.size (d : ImageData) : Vec2 := d.dataWindow.size

/-- Models `ImageData::channel(name)` — the first channel with the given name. -/
def ImageData.channel (d : ImageData) (n : TevName) : Option Channel :=
  d.channels.find? (fun c => c.name == n)

/-- The empty layer keeps the name as-is, otherwise `layer + "."`. -/
def layerPfx (layer : TevName) : TevName := if layer = [] then [] else layer ++ ['.']

/-- The name of a layer's alpha channel (`layerPrefix + "A"`). -/
def alphaNameOf (layer : TevName) : TevName := layerPfx layer ++ ['A']

/-- Models `ImageData::channelsInLayer` at the level of name lists: for the root
layer the dot-free names; otherwise names that start with the layer name,
are strictly longer, and whose remainder after position `|layer|+1`
contains no further dot. -/
def channelNamesInLayer (names : List TevName) (layerName : TevName) : List TevName :=
  if layerName = [] then names.filter (fun n => !(hasDot n))
  else names.filter (fun n =>
    layerName.isPrefixOf n && decide (layerName.length < n.length) &&
      !(hasDot (n.drop (layerName.length + 1))))

def ImageData.channelsInLayer (d : ImageData) (layerName : TevName) : List TevName :=
  channelNamesInLayer (d.channels.map Channel.name) layerName

/-- Applies `f` to the first channel named `n`
(`ImageData::mutableChannel`). -/
def modifyFirst (n : TevName) (f : Channel → Channel) : List Channel → List Channel
  | [] => []
  | c :: cs => if c.name = n then f c :: cs else c :: modifyFirst n f cs

/-- The inner loop body of `ImageData::alphaOperation`: apply
`func(target, alpha)` to the channel named `chanName` unless it is the
alpha channel itself. -/
def targetStep (op : Channel → Channel → Channel) (a : TevName) (α₀ : Channel)
    (acc2 : ImageData) (chanName : TevName) : ImageData :=
  if chanName = a then acc2
  else { acc2 with channels := modifyFirst chanName (fun c => op c α₀) acc2.channels }

/-- The outer loop body of `ImageData::alphaOperation`: skip a layer
without an alpha channel; otherwise fetch the alpha channel once and run
the inner loop over the layer's channel names. -/
def layerStep (op : Channel → Channel → Channel) (acc : ImageData) (layer : TevName) :
    ImageData :=
  match acc.channel (alphaNameOf layer) with
  | none => acc
  | some alphaChannel =>
    (acc.channelsInLayer layer).foldl (targetStep op (alphaNameOf layer) alphaChannel) acc

/-- Models `ImageData::alphaOperation(func)`: for every layer (in order) with an
alpha channel, apply `func target alpha` to every other channel of that
layer.  The alpha channel is fetched once per layer, exactly as in the
source. -/
def alphaOperation (op : Channel → Channel → Channel) (d : ImageData) : ImageData :=
  d.layers.foldl (layerStep op) d

/-- Models `ImageData::multiplyAlpha`: guarded against double premultiplication;
multiplies every non-alpha channel of every layer with that layer's alpha,
then records the premultiplied state. -/
def ImageData.multiplyAlpha (d : ImageData) : Except LoadError ImageData :=
  if d.hasPremultipliedAlpha then .error .doubleMultiply
  else .ok { alphaOperation Channel.multiplyWith d with hasPremultipliedAlpha := true }

/-- Models `ImageData::unmultiplyAlpha`: guarded against double division;
divides every non-alpha channel of every layer by that layer's alpha,
then clears the premultiplied state. -/
def ImageData.unmultiplyAlpha (d : ImageData) : Except LoadError ImageData :=
  if !d.hasPremultipliedAlpha then .error .doubleDivide
  else .ok { alphaOperation Channel.divideBy d with hasPremultipliedAlpha := false }

/-- Lexicographic `<=` on names, i.e. `std::string::operator<=`. -/
def nameLe : TevName → TevName → Bool
  | [], _ => true
  | _ :: _, [] => false
  | a :: as, b :: bs => if a < b then true else if b < a then false else nameLe as bs

def insertSortedName (s : TevName) : List TevName → List TevName
  | [] => [s]
  | t :: ts => if nameLe s t then s :: t :: ts else t :: insertSortedName s ts

/-- Remove later duplicates, keeping first occurrences in order. -/
def dedupKeepFirst (l : List TevName) : List TevName :=
  l.foldl (fun acc s => if s ∈ acc then acc else acc ++ [s]) []

/-- The contents of a `std::set<std::string>` the listed names were
inserted into: the distinct names in lexicographically sorted order. -/
def setSorted (l : List TevName) : List TevName :=
  (dedupKeepFirst l).foldr insertSortedName []

/-- Modelled from the spec: `Channel::split` (Channel.cpp is not among the
sources) splits a name at its *last* dot; a dot-free name has head `""`
and tail itself ("channel `foo.R` → layer `foo`; no dot → root layer"). -/
def splitLastDot : TevName → Option (TevName × TevName)
  | [] => none
  | c :: cs =>
    match splitLastDot cs with
    | some (h, t) => some (c :: h, t)
    | none => if c = '.' then some ([], cs) else none

/-- Modelled from the spec: `Channel::head` — the layer part of a name. -/
def headOf (n : TevName) : TevName :=
  match splitLastDot n with
  | some (h, _) => h
  | none => []

/-- Modelled from the spec: `Channel::tail` — the part after the last dot. -/
def tailOf (n : TevName) : TevName :=
  match splitLastDot n with
  | some (_, t) => t
  | none => n

/-- Lexicographic order on (match-rank, original-index) pairs, as compared
by `std::sort` on `std::pair<size_t, size_t>`. -/
def pairLe (p q : Nat × Nat) : Bool :=
  decide (p.1 < q.1 ∨ (p.1 = q.1 ∧ p.2 ≤ q.2))

def insertPair (p : Nat × Nat) : List (Nat × Nat) → List (Nat × Nat)
  | [] => [p]
  | q :: qs => if pairLe p q then p :: q :: qs else q :: insertPair p qs

/-- Sorting the (match-rank, original-index) pairs ascending.  The pairs
have pairwise-distinct second components, so any comparison sort (the
source uses `std::sort`) produces this unique sorted arrangement. -/
def sortPairs : List (Nat × Nat) → List (Nat × Nat)
  | [] => []
  | p :: ps => insertPair p (sortPairs ps)

/-- The match-collection loop of the selector block of
`ImageData::ensureValid` (for every index `i`, record `(matchId, i)` when
the channel name at `i` matches).  `match?` models
`matchesFuzzy(name, selector, &matchId)`: `some matchId` on a match. -/
def selectorMatches (match? : TevName → Option Nat) (d : ImageData) : List (Nat × Nat) :=
  (List.range d.channels.length).filterMap
    (fun i => (match? (d.channels.getD i default).name).map (fun mid => (mid, i)))

/-- The selector block of `ImageData::ensureValid` (Image.cpp:121-139):
collect the `(matchId, index)` pairs, sort them, and rebuild the channel
list in sorted-pair order. -/
def applySelector (match? : TevName → Option Nat) (d : ImageData) : ImageData :=
  { d with
    channels := (sortPairs (selectorMatches match? d)).filterMap
      (fun p => d.channels[p.2]?) }

/-- The layer-derivation step of `ImageData::ensureValid`: the set of
unique heads of the channel names, in `std::set` (sorted) order. -/
def deriveLayers (d : ImageData) : List TevName :=
  setSorted (d.channels.map (fun c => headOf c.name))

/-- Implements "No data window? Default to the channel size." -/
def defaultDataWindow (d : ImageData) : ImageData :=
  if d.dataWindow.isValid then d
  else { d with dataWindow := rectOfSize (d.channels.headD default).size }

/-- The analogous defaulting of the display window. -/
def defaultDisplayWindow (d : ImageData) : ImageData :=
  if d.displayWindow.isValid then d
  else { d with displayWindow := rectOfSize (d.channels.headD default).size }

/-- Models `ImageData::ensureValid(channelSelector, priority)`.  The fuzzy
matcher lives in a source file that is not part of this snapshot, so it
is passed in as `matcher text filter`, modelled from the spec as an
arbitrary scoring function returning `some matchId` on a match. -/
def ImageData.ensureValid (matcher : TevName → TevName → Option Nat)
    (channelSelector : TevName) (d : ImageData) : Except LoadError ImageData :=
  if d.channels = [] then .error .emptyImage
  else
    let d2 := defaultDisplayWindow (defaultDataWindow d)
    match d2.channels.find? (fun c => !(c.size == d2.size)) with
    | some c => .error (.sizeMismatch c.name c.size d2.size)
    | none =>
      let d3 := if channelSelector = [] then d2
        else applySelector (fun n => matcher n channelSelector) d2
      let d4 := if d3.layers = [] then { d3 with layers := deriveLayers d3 } else d3
      let r := if d4.hasPremultipliedAlpha then Except.ok d4 else d4.multiplyAlpha
      match r with
      | .error e => .error e
      | .ok d5 => if d5.hasPremultipliedAlpha then .ok d5 else .error .assertionFailed

/-- C6: calling `multiplyAlpha` twice without an intervening
`unmultiplyAlpha` fails with the double-multiply error, calling
`unmultiplyAlpha` twice without an intervening `multiplyAlpha` fails with
the double-divide error, and in either case the failing call raises on its
initial flag check, producing no mutated image state (the error carries no
channel data whatsoever). -/
theorem c6_double_alpha_guard (d d₁ d₂ : ImageData) :
    (d.multiplyAlpha = .ok d₁ → d₁.multiplyAlpha = .error .doubleMultiply) ∧
    (d.unmultiplyAlpha = .ok d₂ → d₂.unmultiplyAlpha = .error .doubleDivide) ∧
    (d.hasPremultipliedAlpha = true → d.multiplyAlpha = .error .doubleMultiply) ∧
    (d.hasPremultipliedAlpha = false → d.unmultiplyAlpha = .error .doubleDivide) := by
  unfold ImageData.multiplyAlpha ImageData.unmultiplyAlpha
  by_cases h : d.hasPremultipliedAlpha
  · simp [h]
    intro h₁
    simp [← h₁]
  · simp [h]
    intro h₁
    simp [← h₁]

/-- Witness for C6 on a concrete one-channel image. -/
theorem c6_double_alpha_guard_witness :
    (ImageData.multiplyAlpha
        ⟨[⟨['R'], 1, 1, [1]⟩], [[]], rectOfSize ⟨1, 1⟩, rectOfSize ⟨1, 1⟩, false, []⟩ =
      .ok { alphaOperation Channel.multiplyWith
        ⟨[⟨['R'], 1, 1, [1]⟩], [[]], rectOfSize ⟨1, 1⟩, rectOfSize ⟨1, 1⟩, false, []⟩ with
          hasPremultipliedAlpha := true }) ∧
    (ImageData.multiplyAlpha { alphaOperation Channel.multiplyWith
        ⟨[⟨['R'], 1, 1, [1]⟩], [[]], rectOfSize ⟨1, 1⟩, rectOfSize ⟨1, 1⟩, false, []⟩ with
          hasPremultipliedAlpha := true } = .error .doubleMultiply) := by
  constructor
  · rfl
  · exact (c6_double_alpha_guard
      ⟨[⟨['R'], 1, 1, [1]⟩], [[]], rectOfSize ⟨1, 1⟩, rectOfSize ⟨1, 1⟩, false, []⟩
      { alphaOperation Channel.multiplyWith
        ⟨[⟨['R'], 1, 1, [1]⟩], [[]], rectOfSize ⟨1, 1⟩, rectOfSize ⟨1, 1⟩, false, []⟩ with
          hasPremultipliedAlpha := true }
      ⟨[⟨['R'], 1, 1, [1]⟩], [[]], rectOfSize ⟨1, 1⟩, rectOfSize ⟨1, 1⟩, false, []⟩).1 rfl

/-- A 4×4 channel holding sixteen ones. -/
def chOnes (n : TevName) : Channel := ⟨n, 4, 4, List.replicate 16 1⟩

/-- A 4×4 channel holding sixteen halves. -/
def chHalf (n : TevName) : Channel := ⟨n, 4, 4, List.replicate 16 (1/2)⟩

/-- The C3 test image: channels R, G, B all 1.0, alpha 0.5, no layers, no
valid windows, not yet premultiplied. -/
def dC3 : ImageData :=
  ⟨[chOnes ['R'], chOnes ['G'], chOnes ['B'], chHalf ['A']], [],
    ⟨⟨0, 0⟩, ⟨0, 0⟩⟩, ⟨⟨0, 0⟩, ⟨0, 0⟩⟩, false, []⟩

theorem c3_control_flow : dC3.ensureValid (fun _ _ => none) [] =
    .ok ⟨[(chOnes ['R']).multiplyWith (chHalf ['A']),
          (chOnes ['G']).multiplyWith (chHalf ['A']),
          (chOnes ['B']).multiplyWith (chHalf ['A']),
          chHalf ['A']], [[]],
         ⟨⟨0, 0⟩, ⟨4, 4⟩⟩, ⟨⟨0, 0⟩, ⟨4, 4⟩⟩, true, []⟩ := by rfl

theorem getD_replicate (k i : Nat) (a : ℚ) (h : i < k) :
    (List.replicate k a).getD i 0 = a := by
  rw [List.getD_eq_getElem?_getD, List.getElem?_replicate, if_pos h]
  rfl

theorem multiplyWith_replicate (n m : TevName) (w h w2 h2 k : Nat) (a b : ℚ) :
    (Channel.multiplyWith ⟨n, w, h, List.replicate k a⟩ ⟨m, w2, h2, List.replicate k b⟩) =
      ⟨n, w, h, List.replicate k (a * b)⟩ := by
  simp only [Channel.multiplyWith, Channel.mk.injEq, true_and]
  rw [List.eq_replicate_iff]
  constructor
  · simp
  · intro x hx
    simp only [List.mem_map, List.mem_range] at hx
    obtain ⟨i, hi, rfl⟩ := hx
    have hik : i < k := by simpa using hi
    rw [if_pos (by simpa using hik : i < (List.replicate k b).length),
      getD_replicate k i a hik, getD_replicate k i b hik]

/-- C3: `ensureValid` with an empty selector on an ImageData holding
channels R, G, B, A (each 4×4, all values 1.0 except alpha 0.5) and
`hasPremultipliedAlpha` initially false terminates successfully with
`hasPremultipliedAlpha = true`, every pixel of R, G and B premultiplied to
0.5, A unchanged, exactly the single root layer `""` derived (unique
dot-prefixes of the channel names), and the channel order R, G, B, A
preserved.  (Both windows, initially invalid, default to the 4×4 channel
size.) -/
theorem c3_ensureValid_premultiplies : dC3.ensureValid (fun _ _ => none) [] =
    .ok ⟨[⟨['R'], 4, 4, List.replicate 16 (1/2)⟩,
          ⟨['G'], 4, 4, List.replicate 16 (1/2)⟩,
          ⟨['B'], 4, 4, List.replicate 16 (1/2)⟩,
          ⟨['A'], 4, 4, List.replicate 16 (1/2)⟩], [[]],
         ⟨⟨0, 0⟩, ⟨4, 4⟩⟩, ⟨⟨0, 0⟩, ⟨4, 4⟩⟩, true, []⟩ := by
  rw [c3_control_flow]
  simp only [chOnes, chHalf, multiplyWith_replicate]
  norm_num

/-- A derived display group: name plus ordered member channel names. -/
structure ChannelGroup where
  name : TevName
  channels : List TevName
deriving DecidableEq, Repr

instance : Inhabited ChannelGroup := ⟨⟨[], []⟩⟩

def dedupAdjacentGo (prev : TevName) : List TevName → List TevName
  | [] => []
  | x :: xs => if x = prev then dedupAdjacentGo prev xs else x :: dedupAdjacentGo x xs

/-- Models `std::unique` + `erase`: remove *adjacent* duplicates, keeping the
first of each run. -/
def dedupAdjacent : List TevName → List TevName
  | [] => []
  | x :: xs => x :: dedupAdjacentGo x xs

/-- Models `join(components, ",")`. -/
def joinComma (l : List TevName) : TevName := List.intercalate [','] l

/-- The `createChannelGroup` lambda in `Image::getGroupedChannels`:
adjacent-deduplicate the member names, take their tails, join by comma;
a root-layer group keeps the bare joined string, a non-root group is
prefixed with `layer.` and parenthesized when more than one distinct tail
remains. -/
def createChannelGroup (layer : TevName) (channels : List TevName) : ChannelGroup :=
  let channelTails := (dedupAdjacent channels).map tailOf
  let channelsString := joinComma channelTails
  let gname :=
    if layer = [] then channelsString
    else if channelTails.length = 1 then layer ++ ['.'] ++ channelsString
    else layer ++ ['.', '('] ++ channelsString ++ [')']
  ⟨gname, channels⟩

/-- The fixed canonical tuples tried in order by `getGroupedChannels`. -/
def canonicalTuples : List (List TevName) :=
  [[['R'], ['G'], ['B']], [['r'], ['g'], ['b']],
   [['X'], ['Y'], ['Z']], [['x'], ['y'], ['z']],
   [['U'], ['V']], [['u'], ['v']],
   [['Z']], [['z']]]

/-- One tuple's pass over the pool: each present member (layer-prefixed)
is appended to the group and erased from the pool. -/
def consumeTuple (pfx : TevName) (tuple : List TevName) (pool : List TevName) :
    List TevName × List TevName :=
  tuple.foldl (fun acc ch =>
    let nm := pfx ++ ch
    if nm ∈ acc.2 then (acc.1 ++ [nm], acc.2.erase nm) else acc) ([], pool)

/-- A single-member group is expanded to three duplicate references. -/
def tripleIfSingle : List TevName → List TevName
  | [x] => [x, x, x]
  | l => l

/-- One step of the canonical-tuple loop in `Image::getGroupedChannels`. -/
def groupStep (layerName pfx alphaChannelName : TevName) (hasAlpha : Bool)
    (acc : List ChannelGroup × List TevName) (tuple : List TevName) :
    List ChannelGroup × List TevName :=
  let r := consumeTuple pfx tuple acc.2
  if r.1 = [] then (acc.1, r.2)
  else
    let gc2 := tripleIfSingle r.1
    let gc3 := if hasAlpha then gc2 ++ [alphaChannelName] else gc2
    (acc.1 ++ [createChannelGroup layerName gc3], r.2)

/-- Does the layer contain its alpha channel (`hasAlpha` in the source)? -/
def groupedHasAlpha (d : ImageData) (layerName : TevName) : Bool :=
  alphaNameOf layerName ∈ d.channelsInLayer layerName

/-- The pool of candidate names (`allChannels` after the alpha erase). -/
def groupedPool (d : ImageData) (layerName : TevName) : List TevName :=
  let all0 := d.channelsInLayer layerName
  if groupedHasAlpha d layerName then all0.erase (alphaNameOf layerName) else all0

/-- The canonical-tuple loop's final (groups, leftover pool) state. -/
def groupedFold (d : ImageData) (layerName : TevName) :
    List ChannelGroup × List TevName :=
  canonicalTuples.foldl
    (groupStep layerName (layerPfx layerName) (alphaNameOf layerName) (groupedHasAlpha d layerName))
    ([], groupedPool d layerName)

/-- Tuple groups followed by the tripled leftover singleton groups. -/
def groupedWithLeftovers (d : ImageData) (layerName : TevName) : List ChannelGroup :=
  (groupedFold d layerName).1 ++ (groupedFold d layerName).2.map (fun nm =>
    if groupedHasAlpha d layerName then
      createChannelGroup layerName [nm, nm, nm, alphaNameOf layerName]
    else createChannelGroup layerName [nm, nm, nm])

/-- Models `Image::getGroupedChannels(layerName)`: the layer's alpha channel is
removed from the pool up front; the canonical tuples are tried in order,
each consuming its present members as one group; leftovers become tripled
singleton groups; alpha, when present, is appended to every group; and an
alpha-only layer yields one tripled alpha group. -/
def getGroupedChannels (d : ImageData) (layerName : TevName) : List ChannelGroup :=
  if groupedHasAlpha d layerName && (groupedWithLeftovers d layerName).isEmpty then
    [createChannelGroup layerName
      [alphaNameOf layerName, alphaNameOf layerName, alphaNameOf layerName]]
  else groupedWithLeftovers d layerName

/-- A channel carrying only a name (grouping inspects names only). -/
def namedChannel (n : TevName) : Channel := ⟨n, 0, 0, []⟩

/-- The C2 test image with channel set {R, G, B, A, Z}. -/
def dC2 : ImageData :=
  ⟨[namedChannel ['R'], namedChannel ['G'], namedChannel ['B'],
    namedChannel ['A'], namedChannel ['Z']], [[]],
   ⟨⟨0, 0⟩, ⟨1, 1⟩⟩, ⟨⟨0, 0⟩, ⟨1, 1⟩⟩, true, []⟩

/-- C2: `getGroupedChannels("")` applied to the channel set {R,G,B,A,Z}
returns exactly two groups, with member lists {R,G,B,A} and {Z,Z,Z,A}:
the alpha channel is removed from the pool before tuple matching and
appended as the last member of both groups, the tuple {R,G,B} consumes
R, G and B, the later tuple {X,Y,Z} consumes the remaining Z as a
single-member group that is expanded to three duplicate references. -/
theorem c2_grouped_channels :
    getGroupedChannels dC2 [] =
      [⟨['R', ',', 'G', ',', 'B', ',', 'A'], [['R'], ['G'], ['B'], ['A']]⟩,
       ⟨['Z', ',', 'A'], [['Z'], ['Z'], ['Z'], ['A']]⟩] := by decide

/-- C9 counterexample: the claim asserts every group name is wrapped in
parentheses whenever more than one distinct channel tail remains.  The
first group of `getGroupedChannels("")` on {R,G,B,A,Z} has four distinct
tails, yet its name is the bare `R,G,B,A` — the source parenthesizes only
non-root groups. -/
theorem c9_group_name_counterexample :
    ((getGroupedChannels dC2 []).headD default).name = ['R', ',', 'G', ',', 'B', ',', 'A'] ∧
    ((dedupAdjacent ((getGroupedChannels dC2 []).headD default).channels).map tailOf).length = 4 ∧
    ((getGroupedChannels dC2 []).headD default).name ≠
      ['('] ++ joinComma
        ((dedupAdjacent ((getGroupedChannels dC2 []).headD default).channels).map tailOf) ++
        [')'] := by decide

/-- Modelled from the spec, amended per the counterexample above: the
display name of a group is the adjacent-deduplicated member tails joined
by commas; a root-layer group keeps that string bare, a non-root group is
prefixed with `layer.` and additionally parenthesized when more than one
distinct tail remains. -/
def groupDisplayName (layer : TevName) (channels : List TevName) : TevName :=
  let channelTails := (dedupAdjacent channels).map tailOf
  let channelsString := joinComma channelTails
  if layer = [] then channelsString
  else if channelTails.length = 1 then layer ++ ['.'] ++ channelsString
  else layer ++ ['.', '('] ++ channelsString ++ [')']

theorem mem_foldl_groupStep (ln pfx an : TevName) (ha : Bool)
    (tuples : List (List TevName)) :
    ∀ (acc : List ChannelGroup × List TevName) (g : ChannelGroup),
      g ∈ (tuples.foldl (groupStep ln pfx an ha) acc).1 →
      g ∈ acc.1 ∨ ∃ cs, g = createChannelGroup ln cs := by
  induction tuples with
  | nil => exact fun acc g hg => Or.inl hg
  | cons t ts ih =>
    intro acc g hg
    rw [List.foldl_cons] at hg
    rcases ih _ g hg with h | h
    · simp only [groupStep] at h
      split at h
      · exact Or.inl h
      · rcases List.mem_append.mp h with h | h
        · exact Or.inl h
        · exact Or.inr ⟨_, List.mem_singleton.mp h⟩
    · exact Or.inr h

/-- C9 (amended): every channel group produced by `getGroupedChannels`
carries the display name computed from its member list: the
de-duplicated member tails joined by commas, prefixed by `layer.` exactly
when the layer is non-root, and wrapped in parentheses exactly when the
layer is non-root *and* more than one distinct tail remains. -/
theorem c9_group_name_amended (d : ImageData) (layerName : TevName) (g : ChannelGroup)
    (hg : g ∈ getGroupedChannels d layerName) :
    g.name = groupDisplayName layerName g.channels := by
  have hwl : ∀ g', g' ∈ groupedWithLeftovers d layerName →
      ∃ cs, g' = createChannelGroup layerName cs := by
    intro g' h
    rcases List.mem_append.mp h with h | h
    · rcases mem_foldl_groupStep _ _ _ _ canonicalTuples _ g' h with h0 | h0
      · exact absurd h0 (List.not_mem_nil g')
      · exact h0
    · obtain ⟨nm, _, hnm⟩ := List.mem_map.mp h
      split at hnm
      · exact ⟨_, hnm.symm⟩
      · exact ⟨_, hnm.symm⟩
  have hcs : ∃ cs, g = createChannelGroup layerName cs := by
    rw [getGroupedChannels] at hg
    split at hg
    · exact ⟨_, List.mem_singleton.mp hg⟩
    · exact hwl g hg
  obtain ⟨cs, rfl⟩ := hcs
  rfl

/-- Witness for C9's amended theorem: the root-layer {R,G,B,A} group of
the C2 image. -/
theorem c9_group_name_amended_witness :
    (⟨['R', ',', 'G', ',', 'B', ',', 'A'], [['R'], ['G'], ['B'], ['A']]⟩ : ChannelGroup) ∈
      getGroupedChannels dC2 [] ∧
    (⟨['R', ',', 'G', ',', 'B', ',', 'A'], [['R'], ['G'], ['B'], ['A']]⟩ : ChannelGroup).name =
      groupDisplayName []
        (⟨['R', ',', 'G', ',', 'B', ',', 'A'], [['R'], ['G'], ['B'], ['A']]⟩ : ChannelGroup).channels :=
  ⟨by decide, c9_group_name_amended dC2 [] _ (by decide)⟩

theorem mem_insertPair {x p : Nat × Nat} {l : List (Nat × Nat)} :
    x ∈ insertPair p l ↔ x = p ∨ x ∈ l := by
  induction l with
  | nil => simp [insertPair]
  | cons q qs ih =>
    simp only [insertPair]
    split
    · simp [List.mem_cons]
    · simp only [List.mem_cons, ih]
      tauto

theorem insertPair_perm (p : Nat × Nat) (l : List (Nat × Nat)) :
    (insertPair p l).Perm (p :: l) := by
  induction l with
  | nil => exact List.Perm.refl _
  | cons q qs ih =>
    simp only [insertPair]
    split
    · exact List.Perm.refl _
    · exact (ih.cons q).trans (List.Perm.swap p q qs)

theorem sortPairs_perm (l : List (Nat × Nat)) : (sortPairs l).Perm l := by
  induction l with
  | nil => exact List.Perm.refl _
  | cons p ps ih => exact (insertPair_perm p (sortPairs ps)).trans (ih.cons p)

theorem pairLe_total (p q : Nat × Nat) : pairLe p q = true ∨ pairLe q p = true := by
  simp only [pairLe, decide_eq_true_eq]
  omega

theorem pairLe_trans {p q r : Nat × Nat} (h1 : pairLe p q = true) (h2 : pairLe q r = true) :
    pairLe p r = true := by
  simp only [pairLe, decide_eq_true_eq] at h1 h2 ⊢
  omega

theorem pairwise_insertPair (p : Nat × Nat) (l : List (Nat × Nat))
    (h : l.Pairwise (fun a b => pairLe a b = true)) :
    (insertPair p l).Pairwise (fun a b => pairLe a b = true) := by
  induction l with
  | nil => simp [insertPair]
  | cons q qs ih =>
    rcases List.pairwise_cons.mp h with ⟨hq, hqs⟩
    simp only [insertPair]
    split
    · rename_i hle
      refine List.pairwise_cons.mpr ⟨?_, h⟩
      intro b hb
      rcases List.mem_cons.mp hb with rfl | hb
      · exact hle
      · exact pairLe_trans hle (hq b hb)
    · rename_i hnle
      refine List.pairwise_cons.mpr ⟨?_, ih hqs⟩
      intro b hb
      rcases mem_insertPair.mp hb with heq | hb
      · rw [heq]
        rcases pairLe_total p q with h' | h'
        · exact absurd h' hnle
        · exact h'
      · exact hq b hb

theorem sortPairs_pairwise (l : List (Nat × Nat)) :
    (sortPairs l).Pairwise (fun a b => pairLe a b = true) := by
  induction l with
  | nil => simp [sortPairs]
  | cons p ps ih => exact pairwise_insertPair p (sortPairs ps) ih

theorem selectorMatches_snd_lt (match? : TevName → Option Nat) (d : ImageData) :
    ∀ p ∈ selectorMatches match? d, p.2 < d.channels.length := by
  intro p hp
  simp only [selectorMatches, List.mem_filterMap] at hp
  obtain ⟨i, hi, he⟩ := hp
  obtain ⟨mid, _, rfl⟩ := Option.map_eq_some'.mp he
  exact List.mem_range.mp hi

theorem selectorMatches_snd_pairwise (match? : TevName → Option Nat) (d : ImageData) :
    (selectorMatches match? d).Pairwise (fun a b => a.2 < b.2) := by
  rw [selectorMatches, List.pairwise_filterMap]
  refine (List.pairwise_lt_range _).imp ?_
  intro i j hij b hb b' hb'
  obtain ⟨m, _, rfl⟩ := Option.map_eq_some'.mp hb
  obtain ⟨m', _, rfl⟩ := Option.map_eq_some'.mp hb'
  exact hij

theorem filterMap_getElem?_eq_map (cs : List Channel) :
    ∀ (l : List (Nat × Nat)), (∀ p ∈ l, p.2 < cs.length) →
      l.filterMap (fun p => cs[p.2]?) = l.map (fun p => cs.getD p.2 default) := by
  intro l
  induction l with
  | nil => intro _; rfl
  | cons p ps ih =>
    intro h
    have hp := h p (List.mem_cons_self p ps)
    simp only [List.filterMap_cons, List.map_cons, List.getElem?_eq_getElem hp]
    rw [ih (fun q hq => h q (List.mem_cons_of_mem p hq))]
    rw [List.getD_eq_getElem?_getD, List.getElem?_eq_getElem hp]
    rfl

/-- C7: when `ensureValid` is given a non-empty channel selector, its
selector block keeps exactly the channels whose names match the selector
and reorders the survivors ascending by the pair (match-rank,
original-index): witnessed by a pair list `ms` that is a permutation of
the recorded matches, is strictly sorted in the lexicographic pair order
(so matches of equal rank stay in original index order), and whose
index-projection rebuilds the surviving channel list.  The fuzzy matcher
itself is not among the sources, so the property holds for *every*
match-rank assignment `match?`. -/
theorem c7_selector_filters_and_orders (match? : TevName → Option Nat) (d : ImageData) :
    ∃ ms : List (Nat × Nat),
      ms.Perm (selectorMatches match? d) ∧
      ms.Pairwise (fun p q => p.1 < q.1 ∨ (p.1 = q.1 ∧ p.2 < q.2)) ∧
      (applySelector match? d).channels = ms.map (fun p => d.channels.getD p.2 default) := by
  refine ⟨sortPairs (selectorMatches match? d), sortPairs_perm _, ?_, ?_⟩
  · have h1 := sortPairs_pairwise (selectorMatches match? d)
    have hne : (selectorMatches match? d).Pairwise (fun a b => a.2 ≠ b.2) :=
      (selectorMatches_snd_pairwise match? d).imp (fun h => Nat.ne_of_lt h)
    have h2 : (sortPairs (selectorMatches match? d)).Pairwise (fun a b => a.2 ≠ b.2) :=
      ((sortPairs_perm _).pairwise_iff (fun h => h.symm)).mpr hne
    refine (h1.and h2).imp ?_
    intro a b hab
    obtain ⟨hle, hsne⟩ := hab
    simp only [pairLe, decide_eq_true_eq] at hle
    rcases hle with h | h
    · exact Or.inl h
    · exact Or.inr ⟨h.1, lt_of_le_of_ne h.2 hsne⟩
  · have hbd : ∀ p ∈ sortPairs (selectorMatches match? d), p.2 < d.channels.length :=
      fun p hp => selectorMatches_snd_lt match? d p ((sortPairs_perm _).mem_iff.mp hp)
    exact filterMap_getElem?_eq_map d.channels _ hbd

/-- C10 counterexample: the claim quantifies over *every* ImageData with a
non-empty channel list, but `ensureValid` performs the channel-size check
before selector filtering.  On this image (two channels of different
sizes, empty layer list) with a selector that matches no channel name,
`ensureValid` raises `SizeMismatch` instead of completing without error. -/
theorem c10_empty_selection_counterexample :
    ImageData.ensureValid (fun _ _ => none) ['z']
        ⟨[⟨['P'], 1, 1, [0]⟩, ⟨['Q'], 2, 1, [0, 0]⟩], [],
         ⟨⟨0, 0⟩, ⟨0, 0⟩⟩, ⟨⟨0, 0⟩, ⟨0, 0⟩⟩, false, []⟩ =
      .error (.sizeMismatch ['Q'] ⟨2, 1⟩ ⟨1, 1⟩) ∧
    ([⟨['P'], 1, 1, [0]⟩, ⟨['Q'], 2, 1, [0, 0]⟩] : List Channel) ≠ [] := by
  exact ⟨rfl, by decide⟩

theorem rectOfSize_size (v : Vec2) : (rectOfSize v).size = v := by
  cases v
  simp [rectOfSize, Rectangle.size]

theorem defaultDataWindow_channels (d : ImageData) :
    (defaultDataWindow d).channels = d.channels := by
  unfold defaultDataWindow
  split <;> rfl

theorem defaultDataWindow_layers (d : ImageData) :
    (defaultDataWindow d).layers = d.layers := by
  unfold defaultDataWindow
  split <;> rfl

theorem defaultDataWindow_hasPremultipliedAlpha (d : ImageData) :
    (defaultDataWindow d).hasPremultipliedAlpha = d.hasPremultipliedAlpha := by
  unfold defaultDataWindow
  split <;> rfl

theorem defaultDataWindow_dataWindow (d : ImageData) :
    (defaultDataWindow d).dataWindow =
      if d.dataWindow.isValid then d.dataWindow
      else rectOfSize (d.channels.headD default).size := by
  unfold defaultDataWindow
  split <;> simp_all

theorem defaultDisplayWindow_channels (d : ImageData) :
    (defaultDisplayWindow d).channels = d.channels := by
  unfold defaultDisplayWindow
  split <;> rfl

theorem defaultDisplayWindow_layers (d : ImageData) :
    (defaultDisplayWindow d).layers = d.layers := by
  unfold defaultDisplayWindow
  split <;> rfl

theorem defaultDisplayWindow_hasPremultipliedAlpha (d : ImageData) :
    (defaultDisplayWindow d).hasPremultipliedAlpha = d.hasPremultipliedAlpha := by
  unfold defaultDisplayWindow
  split <;> rfl

theorem defaultDisplayWindow_dataWindow (d : ImageData) :
    (defaultDisplayWindow d).dataWindow = d.dataWindow := by
  unfold defaultDisplayWindow
  split <;> rfl

theorem alphaOperation_nil_layers (op : Channel → Channel → Channel) (d : ImageData)
    (h : d.layers = []) : alphaOperation op d = d := by
  unfold alphaOperation
  rw [h]
  rfl

/-- C10 (amended): for every ImageData with a non-empty channel list
*whose channels all have the (possibly defaulted) data-window size* and
with no pre-supplied layers, a non-empty selector that matches none of
the channel names makes `ensureValid` complete without error, leaving an
empty channel list and an empty derived layer list: the empty-image check
runs before selector filtering, so filtering out every channel is not
reported as a failure. -/
theorem c10_empty_selection_succeeds (matcher : TevName → TevName → Option Nat)
    (sel : TevName) (d : ImageData)
    (hne : d.channels ≠ [])
    (hlay : d.layers = [])
    (hsel : sel ≠ [])
    (hmatch : ∀ c ∈ d.channels, matcher c.name sel = none)
    (hsize : ∀ c ∈ d.channels, c.size =
      (if d.dataWindow.isValid then d.dataWindow.size
       else (d.channels.headD default).size)) :
    ∃ d', d.ensureValid matcher sel = .ok d' ∧ d'.channels = [] ∧ d'.layers = [] := by
  unfold ImageData.ensureValid
  rw [if_neg hne]
  have hch2 : (defaultDisplayWindow (defaultDataWindow d)).channels = d.channels := by
    rw [defaultDisplayWindow_channels, defaultDataWindow_channels]
  have hsz2 : (defaultDisplayWindow (defaultDataWindow d)).size =
      (if d.dataWindow.isValid then d.dataWindow.size
       else (d.channels.headD default).size) := by
    rw [ImageData.size, defaultDisplayWindow_dataWindow, defaultDataWindow_dataWindow]
    split
    · rfl
    · rw [rectOfSize_size]
  have hfind : (defaultDisplayWindow (defaultDataWindow d)).channels.find?
      (fun c => !(c.size == (defaultDisplayWindow (defaultDataWindow d)).size)) = none := by
    rw [List.find?_eq_none]
    intro c hc
    rw [hch2] at hc
    simp only [Bool.not_eq_true', beq_eq_false_iff_ne, ne_eq, Decidable.not_not]
    rw [hsz2]
    exact hsize c hc
  dsimp only
  rw [hfind]
  dsimp only
  rw [if_neg hsel]
  have hmatches : selectorMatches (fun n => matcher n sel)
      (defaultDisplayWindow (defaultDataWindow d)) = [] := by
    unfold selectorMatches
    rw [List.filterMap_eq_nil_iff]
    intro i hi
    rw [hch2] at *
    have hilt : i < d.channels.length := List.mem_range.mp (by simpa using hi)
    have hmem : d.channels.getD i default ∈ d.channels := by
      rw [List.getD_eq_getElem?_getD, List.getElem?_eq_getElem hilt]
      exact List.getElem_mem hilt
    show Option.map (fun mid => (mid, i))
      (matcher (d.channels.getD i default).name sel) = none
    rw [hmatch _ hmem]
    rfl
  have hch3 : (applySelector (fun n => matcher n sel)
      (defaultDisplayWindow (defaultDataWindow d))).channels = [] := by
    unfold applySelector
    rw [hmatches]
    rfl
  have hlay3 : (applySelector (fun n => matcher n sel)
      (defaultDisplayWindow (defaultDataWindow d))).layers = [] := by
    unfold applySelector
    rw [defaultDisplayWindow_layers, defaultDataWindow_layers]
    exact hlay
  rw [if_pos hlay3]
  set d4 : ImageData :=
    { applySelector (fun n => matcher n sel) (defaultDisplayWindow (defaultDataWindow d)) with
      layers := deriveLayers (applySelector (fun n => matcher n sel)
        (defaultDisplayWindow (defaultDataWindow d))) } with hd4
  have hch4 : d4.channels = [] := hch3
  have hlay4 : d4.layers = [] := by
    rw [hd4]
    show deriveLayers _ = []
    unfold deriveLayers
    rw [hch3]
    rfl
  by_cases hpm : d4.hasPremultipliedAlpha
  · refine ⟨d4, ?_, hch4, hlay4⟩
    rw [if_pos hpm]
    dsimp only
    rw [if_pos hpm]
  · refine ⟨{ d4 with hasPremultipliedAlpha := true }, ?_, hch4, hlay4⟩
    rw [if_neg hpm]
    unfold ImageData.multiplyAlpha
    rw [if_neg hpm, alphaOperation_nil_layers Channel.multiplyWith d4 hlay4]
    dsimp only
    rfl

/-- Witness for C10's amended theorem on a concrete two-channel image. -/
theorem c10_empty_selection_succeeds_witness :
    ∃ d', ImageData.ensureValid (fun _ _ => none) ['z']
        ⟨[⟨['P'], 1, 1, [0]⟩, ⟨['Q'], 1, 1, [0]⟩], [],
         ⟨⟨0, 0⟩, ⟨0, 0⟩⟩, ⟨⟨0, 0⟩, ⟨0, 0⟩⟩, false, []⟩ = .ok d' ∧
      d'.channels = [] ∧ d'.layers = [] :=
  c10_empty_selection_succeeds (fun _ _ => none) ['z']
    ⟨[⟨['P'], 1, 1, [0]⟩, ⟨['Q'], 1, 1, [0]⟩], [],
     ⟨⟨0, 0⟩, ⟨0, 0⟩⟩, ⟨⟨0, 0⟩, ⟨0, 0⟩⟩, false, []⟩
    (by decide) rfl (by decide) (by intro c _; rfl) (by decide)

/-!
## BackgroundImagesLoader: the order-restoring publish queue

`enqueue` synchronously assigns `loadId = mUnsortedLoadCounter++` and
schedules the load; on completion (in an arbitrary order) the record is
inserted into the pending buffer and `publishSortedLoads` drains every
record whose id equals `mLoadCounter`, appending successful ones to the
published FIFO.  The pending buffer's comparator lives in a header that is
not among the sources; following the spec ("ordered-priority buffer ...
while the buffer's minimum key equals nextExpected") it is modelled as a
list kept sorted ascending by `loadId`.
-/

/-- One completed load: `{ loadId, shallSelect, images }`; an empty image
list indicates a failed load. -/
structure LoadRecord where
  loadId : Nat
  shallSelect : Bool
  images : List Nat
deriving DecidableEq, Repr

/-- The loader's shared state: the unsorted-counter handing out sequence
ids, the pending min-buffer, the next-expected counter and the published
FIFO. -/
structure LoaderState where
  unsortedLoadCounter : Nat
  pendingLoadedImages : List LoadRecord
  loadCounter : Nat
  loadedImages : List LoadRecord
deriving DecidableEq, Repr

/-- Ordered insertion into the pending buffer (min-priority-queue push). -/
def insertPending (r : LoadRecord) : List LoadRecord → List LoadRecord
  | [] => [r]
  | x :: xs => if r.loadId ≤ x.loadId then r :: x :: xs else x :: insertPending r xs

/-- The `while (!pending.empty() && pending.top().loadId == mLoadCounter)`
drain loop of `publishSortedLoads`: pop the minimum while it equals the
expected counter, appending records with a non-empty image list to the
published FIFO. -/
def drainLoop : Nat → List LoadRecord → List LoadRecord → Nat × List LoadRecord × List LoadRecord
  | c, [], pub => (c, [], pub)
  | c, r :: rest, pub =>
    if r.loadId = c then
      drainLoop (c + 1) rest (if r.images.isEmpty then pub else pub ++ [r])
    else (c, r :: rest, pub)

def publishSortedLoads (s : LoaderState) : LoaderState :=
  let t := drainLoop s.loadCounter s.pendingLoadedImages s.loadedImages
  { s with loadCounter := t.1, pendingLoadedImages := t.2.1, loadedImages := t.2.2 }

/-- The completion handler of the task detached by `enqueue`: push the
record into the pending buffer, then publish in order. -/
def completeLoad (r : LoadRecord) (s : LoaderState) : LoaderState :=
  publishSortedLoads { s with pendingLoadedImages := insertPending r s.pendingLoadedImages }

/-- The synchronous part of `enqueue`: assign `loadId = counter++`. -/
def enqueueId (s : LoaderState) : Nat × LoaderState :=
  (s.unsortedLoadCounter, { s with unsortedLoadCounter := s.unsortedLoadCounter + 1 })

def initialLoaderState : LoaderState := ⟨0, [], 0, []⟩

/-- Runs `n` successive `enqueue` calls: the list of assigned sequence ids and
the resulting state. -/
def enqueueAll : Nat → LoaderState → List Nat × LoaderState
  | 0, s => ([], s)
  | n + 1, s =>
    let p := enqueueId s
    let q := enqueueAll n p.2
    (p.1 :: q.1, q.2)

/-- The record that the decode of request `i` delivers. -/
def mkRec (sel : Nat → Bool) (imgs : Nat → List Nat) (i : Nat) : LoadRecord :=
  ⟨i, sel i, imgs i⟩

theorem mem_insertPending {x r : LoadRecord} {l : List LoadRecord} :
    x ∈ insertPending r l ↔ x = r ∨ x ∈ l := by
  induction l with
  | nil => simp [insertPending]
  | cons q qs ih =>
    simp only [insertPending]
    split
    · simp [List.mem_cons]
    · simp only [List.mem_cons, ih]
      tauto

theorem insertPending_ids {x : Nat} {r : LoadRecord} {l : List LoadRecord} :
    x ∈ (insertPending r l).map LoadRecord.loadId ↔
      x = r.loadId ∨ x ∈ l.map LoadRecord.loadId := by
  simp only [List.mem_map]
  constructor
  · rintro ⟨y, hy, rfl⟩
    rcases mem_insertPending.mp hy with rfl | hy
    · exact Or.inl rfl
    · exact Or.inr ⟨y, hy, rfl⟩
  · rintro (rfl | ⟨y, hy, rfl⟩)
    · exact ⟨r, mem_insertPending.mpr (Or.inl rfl), rfl⟩
    · exact ⟨y, mem_insertPending.mpr (Or.inr hy), rfl⟩

theorem insertPending_sorted (r : LoadRecord) (l : List LoadRecord)
    (h : (l.map LoadRecord.loadId).Pairwise (· < ·))
    (hnm : r.loadId ∉ l.map LoadRecord.loadId) :
    ((insertPending r l).map LoadRecord.loadId).Pairwise (· < ·) := by
  induction l with
  | nil => simp [insertPending]
  | cons q qs ih =>
    simp only [List.map_cons, List.pairwise_cons] at h
    obtain ⟨hq, hqs⟩ := h
    simp only [List.map_cons, List.mem_cons] at hnm
    push_neg at hnm
    obtain ⟨hne, hnm'⟩ := hnm
    simp only [insertPending]
    split
    · rename_i hle
      have hlt : r.loadId < q.loadId := lt_of_le_of_ne hle hne
      simp only [List.map_cons, List.pairwise_cons]
      refine ⟨?_, hq, hqs⟩
      intro b hb
      rcases List.mem_cons.mp hb with rfl | hb
      · exact hlt
      · exact hlt.trans (hq b hb)
    · rename_i hnle
      have hlt : q.loadId < r.loadId := by omega
      simp only [List.map_cons, List.pairwise_cons]
      refine ⟨?_, ih hqs hnm'⟩
      intro b hb
      rcases insertPending_ids.mp hb with rfl | hb
      · exact hlt
      · exact hq b hb

/-- Characterization of the drain loop on a sorted pending buffer: it pops
exactly the maximal run of consecutive ids `c, c+1, ..., c+k-1`, appending
the successful ones (in id order) to the FIFO, and stops at the first gap. -/
theorem drainLoop_spec (sel : Nat → Bool) (imgs : Nat → List Nat) :
    ∀ (P : List LoadRecord) (c : Nat) (pub : List LoadRecord),
      (P.map LoadRecord.loadId).Pairwise (· < ·) →
      (∀ r ∈ P, r = mkRec sel imgs r.loadId) →
      (∀ r ∈ P, c ≤ r.loadId) →
      ∃ k, drainLoop c P pub =
          (c + k, P.drop k,
           pub ++ ((List.range' c k).filter (fun i => !(imgs i).isEmpty)).map (mkRec sel imgs)) ∧
        (P.take k).map LoadRecord.loadId = List.range' c k ∧
        (∀ r ∈ P.drop k, c + k ≠ r.loadId ∧ c + k ≤ r.loadId) := by
  intro P
  induction P with
  | nil =>
    intro c pub _ _ _
    exact ⟨0, by simp [drainLoop], by simp, by simp⟩
  | cons r rest ih =>
    intro c pub hsort hmk hge
    simp only [List.map_cons, List.pairwise_cons] at hsort
    obtain ⟨hrlt, hsort'⟩ := hsort
    by_cases hr : r.loadId = c
    · have hge' : ∀ x ∈ rest, c + 1 ≤ x.loadId := by
        intro x hx
        have := hrlt x.loadId (List.mem_map.mpr ⟨x, hx, rfl⟩)
        omega
      obtain ⟨k', heq', htake', hdrop'⟩ :=
        ih (c + 1) (if r.images.isEmpty then pub else pub ++ [r]) hsort'
          (fun x hx => hmk x (List.mem_cons_of_mem r hx)) hge'
      refine ⟨k' + 1, ?_, ?_, ?_⟩
      · have hstep : drainLoop c (r :: rest) pub =
            drainLoop (c + 1) rest (if r.images.isEmpty then pub else pub ++ [r]) := by
          simp [drainLoop, hr]
        rw [hstep, heq']
        have hrec : r = mkRec sel imgs c := by
          have := hmk r (List.mem_cons_self r rest)
          rw [this, hr]
        have himg : r.images = imgs c := by rw [hrec]; rfl
        simp only [Prod.mk.injEq]
        refine ⟨by omega, by simp, ?_⟩
        show (if r.images.isEmpty then pub else pub ++ [r]) ++ _ = pub ++ _
        rw [List.range'_succ c k' 1, List.filter_cons, himg, hrec]
        by_cases he : (imgs c).isEmpty
        · simp [he]
        · simp [he]
      · have hrange : List.range' c (k' + 1) = c :: List.range' (c + 1) k' :=
          List.range'_succ c k' 1
        simp only [List.take_succ_cons, List.map_cons, htake', hrange, hr]
      · intro x hx
        have := hdrop' x (by simpa using hx)
        omega
    · refine ⟨0, ?_, by simp, ?_⟩
      · simp [drainLoop, hr]
      · intro x hx
        simp only [List.drop_zero] at hx
        rcases List.mem_cons.mp hx with rfl | hx
        · exact ⟨by omega, by simpa using hge x (List.mem_cons_self x rest)⟩
        · have h1 := hrlt x.loadId (List.mem_map.mpr ⟨x, hx, rfl⟩)
          have h2 := hge r (List.mem_cons_self r rest)
          omega

/-- The invariant relating the loader state to the set `D` of request ids
whose decodes have completed so far: the expected counter sits at the
first gap of `D`, the pending buffer holds exactly the completed records
past the counter (sorted), and the FIFO holds exactly the successful
records below the counter, in request order. -/
structure LoaderInv (sel : Nat → Bool) (imgs : Nat → List Nat) (D : List Nat)
    (s : LoaderState) : Prop where
  counter_mem : ∀ m < s.loadCounter, m ∈ D
  counter_not_mem : s.loadCounter ∉ D
  pending_sorted : (s.pendingLoadedImages.map LoadRecord.loadId).Pairwise (· < ·)
  pending_mk : ∀ r ∈ s.pendingLoadedImages, r = mkRec sel imgs r.loadId
  pending_ids : ∀ x, x ∈ s.pendingLoadedImages.map LoadRecord.loadId ↔ x ∈ D ∧ s.loadCounter ≤ x
  published : s.loadedImages =
    ((List.range s.loadCounter).filter (fun i => !(imgs i).isEmpty)).map (mkRec sel imgs)

theorem completeLoad_inv (sel : Nat → Bool) (imgs : Nat → List Nat)
    (D : List Nat) (s : LoaderState) (j : Nat)
    (hInv : LoaderInv sel imgs D s) (hjD : j ∉ D) :
    LoaderInv sel imgs (j :: D) (completeLoad (mkRec sel imgs j) s) := by
  set c := s.loadCounter with hc
  have hjc : c ≤ j := by
    by_contra h
    exact hjD (hInv.counter_mem j (by omega))
  have hjP : j ∉ s.pendingLoadedImages.map LoadRecord.loadId := by
    intro h
    exact hjD ((hInv.pending_ids j).mp h).1
  set P₁ := insertPending (mkRec sel imgs j) s.pendingLoadedImages with hP₁
  have hids₁ : ∀ x, x ∈ P₁.map LoadRecord.loadId ↔
      x = j ∨ x ∈ s.pendingLoadedImages.map LoadRecord.loadId := by
    intro x
    exact insertPending_ids
  have hsort₁ : (P₁.map LoadRecord.loadId).Pairwise (· < ·) :=
    insertPending_sorted _ _ hInv.pending_sorted hjP
  have hmk₁ : ∀ r ∈ P₁, r = mkRec sel imgs r.loadId := by
    intro r hr
    rcases mem_insertPending.mp hr with rfl | hr
    · rfl
    · exact hInv.pending_mk r hr
  have hge₁ : ∀ r ∈ P₁, c ≤ r.loadId := by
    intro r hr
    rcases mem_insertPending.mp hr with rfl | hr
    · exact hjc
    · exact ((hInv.pending_ids r.loadId).mp (List.mem_map.mpr ⟨r, hr, rfl⟩)).2
  obtain ⟨k, heq, htake, hdrop⟩ := drainLoop_spec sel imgs P₁ c s.loadedImages hsort₁ hmk₁ hge₁
  have hres : completeLoad (mkRec sel imgs j) s =
      { unsortedLoadCounter := s.unsortedLoadCounter,
        pendingLoadedImages := P₁.drop k,
        loadCounter := c + k,
        loadedImages := s.loadedImages ++
          ((List.range' c k).filter (fun i => !(imgs i).isEmpty)).map (mkRec sel imgs) } := by
    unfold completeLoad publishSortedLoads
    dsimp only
    rw [← hP₁, ← hc, heq]
  have hPsub : ∀ x, x ∈ (P₁.drop k).map LoadRecord.loadId → x ∈ P₁.map LoadRecord.loadId :=
    fun x hx => by
      obtain ⟨r, hr, rfl⟩ := List.mem_map.mp hx
      exact List.mem_map.mpr ⟨r, (List.drop_sublist k P₁).mem hr, rfl⟩
  have htake_ids : ∀ x, x ∈ (P₁.take k).map LoadRecord.loadId ↔ x ∈ List.range' c k := by
    intro x
    rw [htake]
  rw [hres]
  constructor
  · -- counter_mem
    intro m hm
    dsimp at hm
    by_cases hmc : m < c
    · exact List.mem_cons_of_mem j (hInv.counter_mem m hmc)
    · have hmem : m ∈ List.range' c k := by
        rw [List.mem_range']
        exact ⟨m - c, by omega, by omega⟩
      have : m ∈ P₁.map LoadRecord.loadId := by
        have := (htake_ids m).mpr hmem
        obtain ⟨r, hr, rfl⟩ := List.mem_map.mp this
        exact List.mem_map.mpr ⟨r, (List.take_sublist k P₁).mem hr, rfl⟩
      rcases (hids₁ m).mp this with rfl | h
      · exact List.mem_cons_self m D
      · exact List.mem_cons_of_mem j ((hInv.pending_ids m).mp h).1
  · -- counter_not_mem
    intro hmem
    dsimp at hmem
    have hin : c + k ∈ P₁.map LoadRecord.loadId := by
      rcases List.mem_cons.mp hmem with rfl | h
      · exact (hids₁ _).mpr (Or.inl rfl)
      · exact (hids₁ _).mpr (Or.inr ((hInv.pending_ids _).mpr ⟨h, by omega⟩))
    rw [← List.take_append_drop k P₁, List.map_append, List.mem_append] at hin
    rcases hin with h | h
    · have := (htake_ids _).mp h
      rw [List.mem_range'] at this
      omega
    · obtain ⟨r, hr, hrid⟩ := List.mem_map.mp h
      exact (hdrop r hr).1 hrid.symm
  · -- pending_sorted
    exact hsort₁.sublist ((List.drop_sublist k P₁).map LoadRecord.loadId)
  · -- pending_mk
    intro r hr
    exact hmk₁ r ((List.drop_sublist k P₁).mem hr)
  · -- pending_ids
    intro x
    dsimp
    constructor
    · intro hx
      obtain ⟨r, hr, rfl⟩ := List.mem_map.mp hx
      have hge := (hdrop r hr).2
      have hmem : r.loadId ∈ P₁.map LoadRecord.loadId := hPsub _ hx
      rcases (hids₁ _).mp hmem with h | h
      · exact ⟨by rw [h]; exact List.mem_cons_self j D, hge⟩
      · exact ⟨List.mem_cons_of_mem j ((hInv.pending_ids _).mp h).1, hge⟩
    · rintro ⟨hxD, hxk⟩
      have hxP : x ∈ P₁.map LoadRecord.loadId := by
        rcases List.mem_cons.mp hxD with rfl | h
        · exact (hids₁ _).mpr (Or.inl rfl)
        · exact (hids₁ _).mpr (Or.inr ((hInv.pending_ids _).mpr ⟨h, by omega⟩))
      rw [← List.take_append_drop k P₁, List.map_append, List.mem_append] at hxP
      rcases hxP with h | h
      · have := (htake_ids _).mp h
        rw [List.mem_range'] at this
        omega
      · exact h
  · -- published
    dsimp
    rw [hInv.published, ← hc]
    have : List.range (c + k) = List.range c ++ List.range' c k := by
      rw [List.range_add, List.range'_eq_map_range]
    rw [this, List.filter_append, List.map_append]

theorem completeLoad_unsorted (r : LoadRecord) (s : LoaderState) :
    (completeLoad r s).unsortedLoadCounter = s.unsortedLoadCounter := rfl

theorem foldl_completeLoad_inv (sel : Nat → Bool) (imgs : Nat → List Nat) :
    ∀ (order : List Nat) (D : List Nat) (s : LoaderState),
      LoaderInv sel imgs D s → (∀ j ∈ order, j ∉ D) → order.Nodup →
      LoaderInv sel imgs (order.reverse ++ D)
        (order.foldl (fun s j => completeLoad (mkRec sel imgs j) s) s) := by
  intro order
  induction order with
  | nil => intro D s hInv _ _; simpa using hInv
  | cons j rest ih =>
    intro D s hInv hfresh hnd
    rw [List.foldl_cons]
    have h1 : LoaderInv sel imgs (j :: D) (completeLoad (mkRec sel imgs j) s) :=
      completeLoad_inv sel imgs D s j hInv (hfresh j (List.mem_cons_self j rest))
    have h2 := ih (j :: D) (completeLoad (mkRec sel imgs j) s) h1
      (by
        intro x hx
        rw [List.mem_cons]
        push_neg
        exact ⟨fun hxj => (List.nodup_cons.mp hnd).1 (hxj ▸ hx),
               hfresh x (List.mem_cons_of_mem j hx)⟩)
      (List.nodup_cons.mp hnd).2
    simpa [List.append_assoc] using h2

theorem foldl_completeLoad_unsorted (sel : Nat → Bool) (imgs : Nat → List Nat) :
    ∀ (order : List Nat) (s : LoaderState),
      (order.foldl (fun s j => completeLoad (mkRec sel imgs j) s) s).unsortedLoadCounter =
        s.unsortedLoadCounter := by
  intro order
  induction order with
  | nil => intro s; rfl
  | cons j rest ih =>
    intro s
    rw [List.foldl_cons, ih, completeLoad_unsorted]

theorem enqueueAll_spec : ∀ (n m : Nat) (p : List LoadRecord) (c : Nat) (l : List LoadRecord),
    enqueueAll n ⟨m, p, c, l⟩ = (List.range' m n, ⟨m + n, p, c, l⟩) := by
  intro n
  induction n with
  | zero => intro m p c l; rfl
  | succ n ih =>
    intro m p c l
    show (m :: (enqueueAll n ⟨m + 1, p, c, l⟩).1, (enqueueAll n ⟨m + 1, p, c, l⟩).2) = _
    rw [ih]
    simp [List.range'_succ]
    omega

/-- C1: for every set of `n` enqueued load requests, `enqueue` assigns the
sequence ids `0..n-1` in request order, and — whatever order the decodes
complete in (any permutation `order` of the ids) — the published FIFO
ends up holding exactly the successfully decoded records in
request-sequence order; a request whose load fails (empty image list)
consumes its sequence slot (the expected counter still reaches `n`, the
pending buffer drains) but appends nothing to the FIFO. -/
theorem c1_publish_in_request_order (n : Nat) (sel : Nat → Bool) (imgs : Nat → List Nat)
    (order : List Nat) (hperm : order.Perm (List.range n)) :
    (enqueueAll n initialLoaderState).1 = List.range n ∧
    order.foldl (fun s j => completeLoad (mkRec sel imgs j) s)
        (enqueueAll n initialLoaderState).2 =
      ⟨n, [], n,
       ((List.range n).filter (fun i => !(imgs i).isEmpty)).map (mkRec sel imgs)⟩ := by
  have henq : enqueueAll n initialLoaderState = (List.range' 0 n, ⟨n, [], 0, []⟩) := by
    rw [initialLoaderState, enqueueAll_spec]
    simp
  constructor
  · rw [henq]
    rw [List.range'_eq_map_range]
    simp
  · have hInv0 : LoaderInv sel imgs [] ⟨n, [], 0, []⟩ := by
      constructor
      · intro m hm
        have hm0 : m < 0 := hm
        omega
      · simp
      · simp
      · simp
      · simp
      · simp
    have hfresh : ∀ j ∈ order, j ∉ ([] : List Nat) := by simp
    have hnd : order.Nodup := hperm.nodup_iff.mpr (List.nodup_range n)
    have hfin := foldl_completeLoad_inv sel imgs order [] ⟨n, [], 0, []⟩ hInv0 hfresh hnd
    set final := order.foldl (fun s j => completeLoad (mkRec sel imgs j) s)
      (⟨n, [], 0, []⟩ : LoaderState) with hfinal
    have hDperm : (order.reverse ++ []).Perm (List.range n) := by
      simpa using (order.reverse_perm).trans hperm
    have hDmem : ∀ x, x ∈ order.reverse ++ [] ↔ x < n := by
      intro x
      rw [hDperm.mem_iff, List.mem_range]
    have hcount : final.loadCounter = n := by
      have h1 := hfin.counter_not_mem
      have h2 := hfin.counter_mem
      rw [hDmem] at h1
      by_cases hlt : final.loadCounter < n
      · exact absurd hlt h1
      · by_cases hgt : n < final.loadCounter
        · have := h2 n hgt
          rw [hDmem] at this
          omega
        · omega
    have hpend : final.pendingLoadedImages = [] := by
      have h := hfin.pending_ids
      rcases hp : final.pendingLoadedImages with _ | ⟨r, rest⟩
      · rfl
      · exfalso
        have : r.loadId ∈ final.pendingLoadedImages.map LoadRecord.loadId := by
          rw [hp]; exact List.mem_cons_self _ _
        have h2 := (h r.loadId).mp this
        rw [hDmem] at h2
        omega
    have hpub : final.loadedImages =
        ((List.range n).filter (fun i => !(imgs i).isEmpty)).map (mkRec sel imgs) := by
      rw [hfin.published, hcount]
    have huns : final.unsortedLoadCounter = n :=
      foldl_completeLoad_unsorted sel imgs order _
    rw [henq]
    show final = _
    have heta : final = ⟨final.unsortedLoadCounter, final.pendingLoadedImages,
        final.loadCounter, final.loadedImages⟩ := rfl
    rw [heta, huns, hpend, hcount, hpub]

/-- Witness for C1: three requests, the decodes completing in the order
2, 0, 1, with request 1 failing (empty image list); the published FIFO is
exactly the records of requests 0 and 2, in that order. -/
theorem c1_publish_in_request_order_witness :
    ([2, 0, 1] : List Nat).Perm (List.range 3) ∧
    (enqueueAll 3 initialLoaderState).1 = List.range 3 ∧
    ([2, 0, 1] : List Nat).foldl
        (fun s j => completeLoad (mkRec (fun _ => false) (fun i => if i = 1 then [] else [i]) j) s)
        (enqueueAll 3 initialLoaderState).2 =
      ⟨3, [], 3,
       ((List.range 3).filter (fun i => !((fun i => if i = 1 then [] else [i]) i).isEmpty)).map
         (mkRec (fun _ => false) (fun i => if i = 1 then [] else [i]))⟩ := by
  refine ⟨by decide, ?_⟩
  exact c1_publish_in_request_order 3 (fun _ => false) (fun i => if i = 1 then [] else [i])
    [2, 0, 1] (by decide)

/-!
## The alpha round trip (C5)

`multiplyAlpha` and `unmultiplyAlpha` each traverse the very same
sequence of (target-channel, alpha-channel) name pairs — the sequence
depends only on the channel-name list and the layer list, both of which
the operations preserve.  The lemmas below reduce `alphaOperation` to a
fold of single-channel modifications over that pair sequence and then
track one channel's value pointwise through both folds.
-/

/-- One (target, alpha) application: fetch the alpha channel (by name,
from the current state) and modify the first channel with the target
name. -/
def applyOp (op : Channel → Channel → Channel) (cs : List Channel)
    (p : TevName × TevName) : List Channel :=
  match cs.find? (fun c => c.name == p.2) with
  | none => cs
  | some alphaChannel => modifyFirst p.1 (fun c => op c alphaChannel) cs

def applyOps (op : Channel → Channel → Channel) (P : List (TevName × TevName))
    (cs : List Channel) : List Channel :=
  P.foldl (applyOp op) cs

/-- The (target, alpha) pairs for one alpha name `a` over a name list:
one pair per name other than `a` itself. -/
def pairsFor (a : TevName) (ns : List TevName) : List (TevName × TevName) :=
  ns.filterMap (fun n => if n = a then none else some (n, a))

/-- The (target, alpha) pairs contributed by one layer: nothing if the
layer has no alpha channel, otherwise one pair per non-alpha channel of
the layer, in `channelsInLayer` order. -/
def opsForLayer (names : List TevName) (layer : TevName) : List (TevName × TevName) :=
  if alphaNameOf layer ∈ names then
    pairsFor (alphaNameOf layer) (channelNamesInLayer names layer)
  else []

/-- The full (target, alpha) pair sequence traversed by `alphaOperation`. -/
def opPairs (names : List TevName) (layers : List TevName) : List (TevName × TevName) :=
  layers.flatMap (opsForLayer names)

theorem modifyFirst_map_name (t : TevName) (f : Channel → Channel)
    (hf : ∀ c, (f c).name = c.name) :
    ∀ cs : List Channel, (modifyFirst t f cs).map Channel.name = cs.map Channel.name := by
  intro cs
  induction cs with
  | nil => rfl
  | cons c cs ih =>
    simp only [modifyFirst]
    split
    · simp [hf]
    · simp [ih]

theorem modifyFirst_length (t : TevName) (f : Channel → Channel) :
    ∀ cs : List Channel, (modifyFirst t f cs).length = cs.length := by
  intro cs
  induction cs with
  | nil => rfl
  | cons c cs ih =>
    simp only [modifyFirst]
    split
    · rfl
    · simp [ih]

theorem modifyFirst_find?_ne (t a : TevName) (f : Channel → Channel)
    (hf : ∀ c, (f c).name = c.name) (hne : t ≠ a) :
    ∀ cs : List Channel,
      (modifyFirst t f cs).find? (fun c => c.name == a) =
        cs.find? (fun c => c.name == a) := by
  intro cs
  induction cs with
  | nil => rfl
  | cons c cs ih =>
    simp only [modifyFirst]
    split
    · rename_i hct
      have h1 : ((f c).name == a) = false := by
        simp [hf, hct, hne]
      have h2 : (c.name == a) = false := by
        simp [hct, hne]
      simp [List.find?, h1, h2]
    · rename_i hct
      by_cases hca : c.name = a
      · simp [List.find?, hca]
      · have h2 : (c.name == a) = false := by simp [hca]
        simp [List.find?, h2, ih]

theorem applyOp_map_name (op : Channel → Channel → Channel)
    (hop : ∀ c a, (op c a).name = c.name) (cs : List Channel) (p : TevName × TevName) :
    (applyOp op cs p).map Channel.name = cs.map Channel.name := by
  unfold applyOp
  split
  · rfl
  · exact modifyFirst_map_name _ _ (fun c => hop c _) cs

theorem applyOps_map_name (op : Channel → Channel → Channel)
    (hop : ∀ c a, (op c a).name = c.name) (P : List (TevName × TevName)) :
    ∀ cs : List Channel, (applyOps op P cs).map Channel.name = cs.map Channel.name := by
  induction P with
  | nil => intro cs; rfl
  | cons p P ih =>
    intro cs
    show (applyOps op P (applyOp op cs p)).map Channel.name = _
    rw [ih, applyOp_map_name op hop]

theorem applyOp_find?_ne (op : Channel → Channel → Channel)
    (hop : ∀ c a, (op c a).name = c.name) (cs : List Channel) (p : TevName × TevName)
    (a : TevName) (hne : p.1 ≠ a) :
    (applyOp op cs p).find? (fun c => c.name == a) = cs.find? (fun c => c.name == a) := by
  unfold applyOp
  split
  · rfl
  · exact modifyFirst_find?_ne _ _ _ (fun c => hop c _) hne cs

theorem applyOps_find?_ne (op : Channel → Channel → Channel)
    (hop : ∀ c a, (op c a).name = c.name) (P : List (TevName × TevName)) (a : TevName)
    (hne : ∀ p ∈ P, p.1 ≠ a) :
    ∀ cs : List Channel,
      (applyOps op P cs).find? (fun c => c.name == a) =
        cs.find? (fun c => c.name == a) := by
  induction P with
  | nil => intro cs; rfl
  | cons p P ih =>
    intro cs
    show (applyOps op P (applyOp op cs p)).find? _ = _
    rw [ih (fun q hq => hne q (List.mem_cons_of_mem p hq)),
      applyOp_find?_ne op hop cs p a (hne p (List.mem_cons_self p P))]

theorem find?_name_eq_none (cs : List Channel) (a : TevName) :
    cs.find? (fun c => c.name == a) = none ↔ a ∉ cs.map Channel.name := by
  rw [List.find?_eq_none]
  constructor
  · intro h hmem
    obtain ⟨c, hc, rfl⟩ := List.mem_map.mp hmem
    exact absurd (by simp : (c.name == c.name) = true) (by simpa using h c hc)
  · intro h c hc
    intro hbeq
    exact h (List.mem_map.mpr ⟨c, hc, by simpa using hbeq⟩)

theorem foldl_targetStep_eq (op : Channel → Channel → Channel)
    (hop : ∀ c a, (op c a).name = c.name) (a : TevName) (α₀ : Channel) :
    ∀ (ns : List TevName) (d : ImageData),
      d.channels.find? (fun c => c.name == a) = some α₀ →
      ns.foldl (targetStep op a α₀) d =
        { d with channels := (pairsFor a ns).foldl (applyOp op) d.channels } := by
  intro ns
  induction ns with
  | nil => intro d _; rfl
  | cons n ns ih =>
    intro d hfind
    rw [pairsFor, List.filterMap_cons]
    rw [List.foldl_cons]
    rw [show List.filterMap (fun n => if n = a then none else some (n, a)) ns = pairsFor a ns from rfl]
    by_cases hna : n = a
    · rw [if_pos hna]
      have hts : targetStep op a α₀ d n = d := by simp [targetStep, hna]
      rw [hts]
      exact ih d hfind
    · rw [if_neg hna]
      have hts : targetStep op a α₀ d n =
          { d with channels := modifyFirst n (fun c => op c α₀) d.channels } := by
        simp [targetStep, hna]
      have happ : applyOp op d.channels (n, a) =
          modifyFirst n (fun c => op c α₀) d.channels := by
        unfold applyOp
        rw [hfind]
      have hfind' : (modifyFirst n (fun c => op c α₀) d.channels).find?
          (fun c => c.name == a) = some α₀ := by
        rw [modifyFirst_find?_ne n a (fun c => op c α₀) (fun c => hop c α₀) hna d.channels]
        exact hfind
      rw [hts, ih { d with channels := modifyFirst n (fun c => op c α₀) d.channels } hfind']
      rw [List.foldl_cons, happ]

theorem find?_name_eq_some_mem {cs : List Channel} {a : TevName} {α₀ : Channel}
    (h : cs.find? (fun c => c.name == a) = some α₀) : a ∈ cs.map Channel.name := by
  have hmem := List.mem_of_find?_eq_some h
  have hname : α₀.name = a := by simpa using List.find?_some h
  exact List.mem_map.mpr ⟨α₀, hmem, hname⟩

theorem layerStep_eq (op : Channel → Channel → Channel)
    (hop : ∀ c a, (op c a).name = c.name) (d : ImageData) (layer : TevName) :
    layerStep op d layer =
      { d with channels :=
          applyOps op (opsForLayer (d.channels.map Channel.name) layer) d.channels } := by
  cases hfind : d.channels.find? (fun c => c.name == alphaNameOf layer) with
  | none =>
    have hnm : alphaNameOf layer ∉ d.channels.map Channel.name :=
      (find?_name_eq_none _ _).mp hfind
    simp only [layerStep, ImageData.channel, hfind, opsForLayer, if_neg hnm]
    rfl
  | some α₀ =>
    have hmem : alphaNameOf layer ∈ d.channels.map Channel.name :=
      find?_name_eq_some_mem hfind
    simp only [layerStep, ImageData.channel, hfind, opsForLayer, if_pos hmem]
    exact foldl_targetStep_eq op hop (alphaNameOf layer) α₀ _ d hfind

theorem alphaOperation_eq_applyOps (op : Channel → Channel → Channel)
    (hop : ∀ c a, (op c a).name = c.name) :
    ∀ (ls : List TevName) (d : ImageData),
      ls.foldl (layerStep op) d =
        { d with channels :=
            applyOps op (opPairs (d.channels.map Channel.name) ls) d.channels } := by
  intro ls
  induction ls with
  | nil => intro d; rfl
  | cons l ls ih =>
    intro d
    rw [List.foldl_cons, layerStep_eq op hop d l, ih _]
    dsimp only
    rw [applyOps_map_name op hop]
    have hsplit : applyOps op (opPairs (d.channels.map Channel.name) (l :: ls)) d.channels =
        applyOps op (opPairs (d.channels.map Channel.name) ls)
          (applyOps op (opsForLayer (d.channels.map Channel.name) l) d.channels) := by
      simp only [opPairs, List.flatMap_cons]
      rw [applyOps, List.foldl_append]
      rfl
    rw [hsplit]

theorem alphaOperation_eq (op : Channel → Channel → Channel)
    (hop : ∀ c a, (op c a).name = c.name) (d : ImageData) :
    alphaOperation op d =
      { d with channels :=
          applyOps op (opPairs (d.channels.map Channel.name) d.layers) d.channels } :=
  alphaOperation_eq_applyOps op hop d.layers d

theorem modifyFirst_getD_first (t : TevName) (f : Channel → Channel) :
    ∀ (cs : List Channel) (k : Nat), k < cs.length →
      (cs.getD k default).name = t → (∀ j < k, (cs.getD j default).name ≠ t) →
      (modifyFirst t f cs).getD k default = f (cs.getD k default) := by
  intro cs
  induction cs with
  | nil => intro k hk; exact absurd hk (by simp)
  | cons c cs ih =>
    intro k hk hname hfirst
    simp only [modifyFirst]
    cases k with
    | zero =>
      have hc : c.name = t := by simpa using hname
      rw [if_pos hc]
      simp
    | succ k =>
      have hc : c.name ≠ t := by simpa using hfirst 0 (Nat.succ_pos k)
      rw [if_neg hc]
      simp only [List.getD_cons_succ] at hname ⊢
      exact ih k (by simpa using hk) hname
        (fun j hj => by simpa using hfirst (j + 1) (by omega))

theorem modifyFirst_getD_other (t : TevName) (f : Channel → Channel) :
    ∀ (cs : List Channel) (k : Nat),
      ((cs.getD k default).name ≠ t ∨ ∃ j, j < k ∧ (cs.getD j default).name = t) →
      (modifyFirst t f cs).getD k default = cs.getD k default := by
  intro cs
  induction cs with
  | nil => intro k _; rfl
  | cons c cs ih =>
    intro k h
    simp only [modifyFirst]
    by_cases hc : c.name = t
    · rw [if_pos hc]
      cases k with
      | zero =>
        rcases h with h | ⟨j, hj, _⟩
        · exact absurd (by simpa using h) (by simp [hc])
        · omega
      | succ k => simp
    · rw [if_neg hc]
      cases k with
      | zero => simp
      | succ k =>
        simp only [List.getD_cons_succ]
        apply ih
        rcases h with h | ⟨j, hj, hjt⟩
        · exact Or.inl (by simpa using h)
        · cases j with
          | zero => exact absurd (by simpa using hjt) hc
          | succ j => exact Or.inr ⟨j, by omega, by simpa using hjt⟩

theorem name_getD_eq_of_map_name_eq {cs₁ cs₂ : List Channel}
    (h : cs₁.map Channel.name = cs₂.map Channel.name) (k : Nat) :
    (cs₁.getD k default).name = (cs₂.getD k default).name := by
  have hlen : cs₁.length = cs₂.length := by
    have := congrArg List.length h
    simpa using this
  by_cases hk : k < cs₂.length
  · have hk1 : k < cs₁.length := by omega
    have h1 : (cs₁.map Channel.name)[k]? = (cs₂.map Channel.name)[k]? := by rw [h]
    rw [List.getElem?_map, List.getElem?_map, List.getElem?_eq_getElem hk1,
      List.getElem?_eq_getElem hk] at h1
    simp only [Option.map_some'] at h1
    rw [List.getD_eq_getElem?_getD, List.getD_eq_getElem?_getD,
      List.getElem?_eq_getElem hk1, List.getElem?_eq_getElem hk]
    simpa using h1
  · rw [List.getD_eq_default _ _ (by omega), List.getD_eq_default _ _ (by omega)]

theorem applyOps_length (op : Channel → Channel → Channel)
    (hop : ∀ c a, (op c a).name = c.name) (P : List (TevName × TevName))
    (cs : List Channel) : (applyOps op P cs).length = cs.length := by
  have := congrArg List.length (applyOps_map_name op hop P cs)
  simpa using this

/-- The alpha channels applied, in order, to the channel named `n` by the
op sequence `P`, with alpha lookups performed in `cs`. -/
def alphasFor (n : TevName) (P : List (TevName × TevName)) (cs : List Channel) :
    List Channel :=
  P.filterMap (fun p => if p.1 = n then cs.find? (fun c => c.name == p.2) else none)

theorem alphasFor_congr (n : TevName) :
    ∀ (P : List (TevName × TevName)) (cs₁ cs₂ : List Channel),
      (∀ p ∈ P, cs₁.find? (fun c => c.name == p.2) = cs₂.find? (fun c => c.name == p.2)) →
      alphasFor n P cs₁ = alphasFor n P cs₂ := by
  intro P
  induction P with
  | nil => intro _ _ _; rfl
  | cons p P ih =>
    intro cs₁ cs₂ h
    have hh := h p (List.mem_cons_self p P)
    have htail := ih cs₁ cs₂ (fun q hq => h q (List.mem_cons_of_mem p hq))
    simp only [alphasFor, List.filterMap_cons] at htail ⊢
    by_cases hp : p.1 = n
    · rw [if_pos hp, if_pos hp, hh, htail]
    · rw [if_neg hp, if_neg hp, htail]

theorem applyOps_getD_first (op : Channel → Channel → Channel)
    (hop : ∀ c a, (op c a).name = c.name) :
    ∀ (P : List (TevName × TevName)) (cs : List Channel) (k : Nat),
      (∀ p ∈ P, ∀ q ∈ P, p.1 ≠ q.2) → k < cs.length →
      (∀ j < k, (cs.getD j default).name ≠ (cs.getD k default).name) →
      (applyOps op P cs).getD k default =
        (alphasFor (cs.getD k default).name P cs).foldl op (cs.getD k default) := by
  intro P
  induction P with
  | nil => intro cs k _ _ _; rfl
  | cons p P ih =>
    intro cs k hH hk hfirst
    have hnames₁ : (applyOp op cs p).map Channel.name = cs.map Channel.name :=
      applyOp_map_name op hop cs p
    have hlen₁ : (applyOp op cs p).length = cs.length := by
      have := congrArg List.length hnames₁
      simpa using this
    have hnameAt : ∀ j, ((applyOp op cs p).getD j default).name = (cs.getD j default).name :=
      name_getD_eq_of_map_name_eq hnames₁
    have hH' : ∀ p' ∈ P, ∀ q ∈ P, p'.1 ≠ q.2 :=
      fun p' hp' q hq => hH p' (List.mem_cons_of_mem p hp') q (List.mem_cons_of_mem p hq)
    have hfind₁ : ∀ q ∈ P, (applyOp op cs p).find? (fun c => c.name == q.2) =
        cs.find? (fun c => c.name == q.2) :=
      fun q hq => applyOp_find?_ne op hop cs p q.2
        (hH p (List.mem_cons_self p P) q (List.mem_cons_of_mem p hq))
    have hfirst₁ : ∀ j < k,
        ((applyOp op cs p).getD j default).name ≠ ((applyOp op cs p).getD k default).name := by
      intro j hj
      rw [hnameAt j, hnameAt k]
      exact hfirst j hj
    have hstep : applyOps op (p :: P) cs = applyOps op P (applyOp op cs p) := rfl
    rw [hstep, ih (applyOp op cs p) k hH' (by omega) hfirst₁, hnameAt k,
      alphasFor_congr (cs.getD k default).name P (applyOp op cs p) cs hfind₁]
    by_cases hp : p.1 = (cs.getD k default).name
    · cases hf : cs.find? (fun c => c.name == p.2) with
      | none =>
        have hcc : applyOp op cs p = cs := by unfold applyOp; rw [hf]
        have hhead : alphasFor (cs.getD k default).name (p :: P) cs =
            alphasFor (cs.getD k default).name P cs := by
          simp only [alphasFor, List.filterMap_cons, if_pos hp, hf]
        rw [hcc, hhead]
      | some α =>
        have hcc : applyOp op cs p = modifyFirst p.1 (fun c => op c α) cs := by
          unfold applyOp; rw [hf]
        have hval : (applyOp op cs p).getD k default = op (cs.getD k default) α := by
          rw [hcc, hp]
          exact modifyFirst_getD_first (cs.getD k default).name (fun c => op c α)
            cs k hk rfl hfirst
        have hhead : alphasFor (cs.getD k default).name (p :: P) cs =
            α :: alphasFor (cs.getD k default).name P cs := by
          simp only [alphasFor, List.filterMap_cons, if_pos hp, hf]
        rw [hval, hhead, List.foldl_cons]
    · have hval : (applyOp op cs p).getD k default = cs.getD k default := by
        unfold applyOp
        cases hf : cs.find? (fun c => c.name == p.2) with
        | none => rfl
        | some α =>
          exact modifyFirst_getD_other p.1 (fun c => op c α) cs k
            (Or.inl (fun hcontra => hp hcontra.symm))
      have hhead : alphasFor (cs.getD k default).name (p :: P) cs =
          alphasFor (cs.getD k default).name P cs := by
        simp only [alphasFor, List.filterMap_cons, if_neg hp]
      rw [hval, hhead]

theorem applyOps_getD_nonfirst (op : Channel → Channel → Channel)
    (hop : ∀ c a, (op c a).name = c.name) :
    ∀ (P : List (TevName × TevName)) (cs : List Channel) (k : Nat),
      (∃ j, j < k ∧ (cs.getD j default).name = (cs.getD k default).name) →
      (applyOps op P cs).getD k default = cs.getD k default := by
  intro P
  induction P with
  | nil => intro cs k _; rfl
  | cons p P ih =>
    intro cs k hnf
    have hnameAt : ∀ j, ((applyOp op cs p).getD j default).name = (cs.getD j default).name :=
      name_getD_eq_of_map_name_eq (applyOp_map_name op hop cs p)
    have hval : (applyOp op cs p).getD k default = cs.getD k default := by
      unfold applyOp
      cases hf : cs.find? (fun c => c.name == p.2) with
      | none => rfl
      | some α =>
        apply modifyFirst_getD_other p.1 (fun c => op c α) cs k
        obtain ⟨j, hj, hjeq⟩ := hnf
        by_cases hpk : (cs.getD k default).name = p.1
        · exact Or.inr ⟨j, hj, hjeq.trans hpk⟩
        · exact Or.inl hpk
    have hnf₁ : ∃ j, j < k ∧
        ((applyOp op cs p).getD j default).name = ((applyOp op cs p).getD k default).name := by
      obtain ⟨j, hj, hjeq⟩ := hnf
      exact ⟨j, hj, by rw [hnameAt j, hnameAt k]; exact hjeq⟩
    have hstep : applyOps op (p :: P) cs = applyOps op P (applyOp op cs p) := rfl
    rw [hstep, ih (applyOp op cs p) k hnf₁, hval]

theorem foldl_multiplyWith_length :
    ∀ (as : List Channel) (c : Channel),
      (as.foldl Channel.multiplyWith c).data.length = c.data.length := by
  intro as
  induction as with
  | nil => intro c; rfl
  | cons α as ih =>
    intro c
    rw [List.foldl_cons, ih, Channel.multiplyWith_length]

theorem foldl_divideBy_length :
    ∀ (as : List Channel) (c : Channel),
      (as.foldl Channel.divideBy c).data.length = c.data.length := by
  intro as
  induction as with
  | nil => intro c; rfl
  | cons α as ih =>
    intro c
    rw [List.foldl_cons, ih, Channel.divideBy_length]

theorem foldl_multiplyWith_getD (i : Nat) :
    ∀ (as : List Channel) (c : Channel), i < c.data.length →
      (as.foldl Channel.multiplyWith c).data.getD i 0 =
        as.foldl (fun v α => if i < α.data.length then v * α.data.getD i 0 else v)
          (c.data.getD i 0) := by
  intro as
  induction as with
  | nil => intro c _; rfl
  | cons α as ih =>
    intro c hi
    rw [List.foldl_cons, List.foldl_cons,
      ih (c.multiplyWith α) (by rw [Channel.multiplyWith_length]; exact hi),
      Channel.multiplyWith_getD c α i hi]

theorem foldl_divideBy_getD (i : Nat) :
    ∀ (as : List Channel) (c : Channel), i < c.data.length →
      (as.foldl Channel.divideBy c).data.getD i 0 =
        as.foldl (fun v α => if i < α.data.length then
            (if α.data.getD i 0 ≠ 0 then v / α.data.getD i 0 else 0) else v)
          (c.data.getD i 0) := by
  intro as
  induction as with
  | nil => intro c _; rfl
  | cons α as ih =>
    intro c hi
    rw [List.foldl_cons, List.foldl_cons,
      ih (c.divideBy α) (by rw [Channel.divideBy_length]; exact hi),
      Channel.divideBy_getD c α i hi]

/-- The product of the applicable alpha values at pixel `i`. -/
def prodAt (i : Nat) (as : List Channel) : ℚ :=
  as.foldl (fun r α => if i < α.data.length then r * α.data.getD i 0 else r) 1

theorem foldl_mstep_eq (i : Nat) :
    ∀ (as : List Channel) (v : ℚ),
      as.foldl (fun v α => if i < α.data.length then v * α.data.getD i 0 else v) v =
        v * prodAt i as := by
  intro as
  induction as with
  | nil => intro v; simp [prodAt]
  | cons α as ih =>
    intro v
    have hp : prodAt i (α :: as) =
        (if i < α.data.length then 1 * α.data.getD i 0 else 1) * prodAt i as := by
      unfold prodAt
      rw [List.foldl_cons, ih]
      rfl
    rw [List.foldl_cons, ih, hp]
    by_cases hi : i < α.data.length
    · simp only [if_pos hi]
      ring
    · simp only [if_neg hi]
      ring

theorem dfold_mul_prodAt_cancel (i : Nat) :
    ∀ (as : List Channel),
      (∀ α ∈ as, i < α.data.length → α.data.getD i 0 ≠ 0) → ∀ (v : ℚ),
      as.foldl (fun v α => if i < α.data.length then
          (if α.data.getD i 0 ≠ 0 then v / α.data.getD i 0 else 0) else v)
        (v * prodAt i as) = v := by
  intro as
  induction as with
  | nil => intro _ v; simp [prodAt]
  | cons α as ih =>
    intro hnz v
    have hp : prodAt i (α :: as) =
        (if i < α.data.length then 1 * α.data.getD i 0 else 1) * prodAt i as := by
      unfold prodAt
      rw [List.foldl_cons, foldl_mstep_eq]
      rfl
    rw [List.foldl_cons, hp]
    by_cases hi : i < α.data.length
    · have ha : α.data.getD i 0 ≠ 0 := hnz α (List.mem_cons_self α as) hi
      simp only [if_pos hi, one_mul, if_pos ha]
      have heq : v * (α.data.getD i 0 * prodAt i as) / α.data.getD i 0 =
          v * prodAt i as := by
        rw [div_eq_iff ha]
        ring
      rw [heq]
      exact ih (fun β hβ => hnz β (List.mem_cons_of_mem α hβ)) v
    · simp only [if_neg hi, one_mul]
      exact ih (fun β hβ => hnz β (List.mem_cons_of_mem α hβ)) v

/-- Round trip at one pixel: multiplying a value through a list of alpha
channels and then dividing through the same list restores the value,
provided every applicable alpha value is nonzero. -/
theorem pointwise_roundtrip (i : Nat) (as : List Channel)
    (hnz : ∀ α ∈ as, i < α.data.length → α.data.getD i 0 ≠ 0) (v : ℚ) :
    as.foldl (fun v α => if i < α.data.length then
        (if α.data.getD i 0 ≠ 0 then v / α.data.getD i 0 else 0) else v)
      (as.foldl (fun v α => if i < α.data.length then v * α.data.getD i 0 else v) v) = v := by
  rw [foldl_mstep_eq]
  exact dfold_mul_prodAt_cancel i as hnz v

theorem multiplyWith_name_eq : ∀ (c a : Channel), (c.multiplyWith a).name = c.name :=
  fun _ _ => rfl

theorem divideBy_name_eq : ∀ (c a : Channel), (c.divideBy a).name = c.name :=
  fun _ _ => rfl

theorem mem_alphasFor {n : TevName} {P : List (TevName × TevName)} {cs : List Channel}
    {α : Channel} (h : α ∈ alphasFor n P cs) :
    ∃ p ∈ P, p.1 = n ∧ cs.find? (fun c => c.name == p.2) = some α := by
  unfold alphasFor at h
  obtain ⟨p, hp, he⟩ := List.mem_filterMap.mp h
  by_cases hpn : p.1 = n
  · rw [if_pos hpn] at he
    exact ⟨p, hp, hpn, he⟩
  · rw [if_neg hpn] at he
    exact absurd he (by simp)

/-- C5 (amended): for every ImageData with `hasPremultipliedAlpha = false`
in which no channel serving as some layer's alpha is itself a
multiplication target of any layer (true in particular for ordinary
layer/channel-name sets; it can fail when a layer name ending in a dot
coexists with the matching plain layer), running `multiplyAlpha` followed
by `unmultiplyAlpha` restores every channel value at every pixel where
all the alpha values applied to that channel are nonzero — in the common
single-layer-per-channel case, exactly "where the layer's alpha channel
value is not 0". -/
theorem c5_alpha_roundtrip_amended (d : ImageData)
    (hflag : d.hasPremultipliedAlpha = false)
    (H : ∀ p ∈ opPairs (d.channels.map Channel.name) d.layers,
         ∀ q ∈ opPairs (d.channels.map Channel.name) d.layers, p.1 ≠ q.2)
    (k i : Nat)
    (halpha : ∀ p ∈ opPairs (d.channels.map Channel.name) d.layers,
        p.1 = (d.channels.getD k default).name →
        ∀ α, d.channels.find? (fun c => c.name == p.2) = some α →
          i < α.data.length → α.data.getD i 0 ≠ 0) :
    ∃ d₁ d₂, d.multiplyAlpha = .ok d₁ ∧ d₁.unmultiplyAlpha = .ok d₂ ∧
      (d₂.channels.getD k default).data.getD i 0 =
        (d.channels.getD k default).data.getD i 0 := by
  set P := opPairs (d.channels.map Channel.name) d.layers with hP
  refine ⟨{ alphaOperation Channel.multiplyWith d with hasPremultipliedAlpha := true },
    { alphaOperation Channel.divideBy
        { alphaOperation Channel.multiplyWith d with hasPremultipliedAlpha := true } with
      hasPremultipliedAlpha := false }, ?_, ?_, ?_⟩
  · unfold ImageData.multiplyAlpha
    rw [hflag]
    rfl
  · rfl
  · have hch₁ : ({ alphaOperation Channel.multiplyWith d with
        hasPremultipliedAlpha := true } : ImageData).channels =
        applyOps Channel.multiplyWith P d.channels := by
      rw [alphaOperation_eq Channel.multiplyWith multiplyWith_name_eq d]
    have hlay₁ : ({ alphaOperation Channel.multiplyWith d with
        hasPremultipliedAlpha := true } : ImageData).layers = d.layers := by
      rw [alphaOperation_eq Channel.multiplyWith multiplyWith_name_eq d]
    have hnames₁ : (applyOps Channel.multiplyWith P d.channels).map Channel.name =
        d.channels.map Channel.name :=
      applyOps_map_name Channel.multiplyWith multiplyWith_name_eq P d.channels
    have hch₂ : ({ alphaOperation Channel.divideBy
        { alphaOperation Channel.multiplyWith d with hasPremultipliedAlpha := true } with
        hasPremultipliedAlpha := false } : ImageData).channels =
        applyOps Channel.divideBy P (applyOps Channel.multiplyWith P d.channels) := by
      rw [alphaOperation_eq Channel.divideBy divideBy_name_eq]
      show (applyOps Channel.divideBy _ _) = _
      rw [hch₁, hlay₁, hnames₁]
    rw [hch₂]
    have hnameAt₁ : ∀ j, ((applyOps Channel.multiplyWith P d.channels).getD j default).name =
        (d.channels.getD j default).name :=
      name_getD_eq_of_map_name_eq hnames₁
    by_cases hk : k < d.channels.length
    · by_cases hnf : ∃ j, j < k ∧
          (d.channels.getD j default).name = (d.channels.getD k default).name
      · have h2 := applyOps_getD_nonfirst Channel.divideBy divideBy_name_eq P
          (applyOps Channel.multiplyWith P d.channels) k
          (by
            obtain ⟨j, hj, hje⟩ := hnf
            exact ⟨j, hj, by rw [hnameAt₁ j, hnameAt₁ k]; exact hje⟩)
        have h1 := applyOps_getD_nonfirst Channel.multiplyWith multiplyWith_name_eq P
          d.channels k hnf
        rw [h2, h1]
      · push_neg at hnf
        have hfirst : ∀ j < k, (d.channels.getD j default).name ≠
            (d.channels.getD k default).name := fun j hj => hnf j hj
        have hfirst₁ : ∀ j < k,
            ((applyOps Channel.multiplyWith P d.channels).getD j default).name ≠
              ((applyOps Channel.multiplyWith P d.channels).getD k default).name := by
          intro j hj
          rw [hnameAt₁ j, hnameAt₁ k]
          exact hfirst j hj
        have hlen₁ : (applyOps Channel.multiplyWith P d.channels).length =
            d.channels.length :=
          applyOps_length Channel.multiplyWith multiplyWith_name_eq P d.channels
        have hv1 := applyOps_getD_first Channel.multiplyWith multiplyWith_name_eq P
          d.channels k H hk hfirst
        have hv2 := applyOps_getD_first Channel.divideBy divideBy_name_eq P
          (applyOps Channel.multiplyWith P d.channels) k H (by omega) hfirst₁
        have hfinds : ∀ q ∈ P, (applyOps Channel.multiplyWith P d.channels).find?
            (fun c => c.name == q.2) = d.channels.find? (fun c => c.name == q.2) := by
          intro q hq
          exact applyOps_find?_ne Channel.multiplyWith multiplyWith_name_eq P q.2
            (fun p hp => H p hp q hq) d.channels
        rw [hv2, hnameAt₁ k,
          alphasFor_congr (d.channels.getD k default).name P _ d.channels hfinds, hv1]
        have hnz : ∀ α ∈ alphasFor (d.channels.getD k default).name P d.channels,
            i < α.data.length → α.data.getD i 0 ≠ 0 := by
          intro α hα hi
          obtain ⟨p, hp, hpn, hf⟩ := mem_alphasFor hα
          exact halpha p hp hpn α hf hi
        by_cases hi : i < (d.channels.getD k default).data.length
        · have hmlen : ((alphasFor (d.channels.getD k default).name P d.channels).foldl
              Channel.multiplyWith (d.channels.getD k default)).data.length =
              (d.channels.getD k default).data.length :=
            foldl_multiplyWith_length _ _
          rw [foldl_divideBy_getD i _ _ (by omega),
            foldl_multiplyWith_getD i _ _ hi]
          exact pointwise_roundtrip i _ hnz _
        · have hl1 : ((alphasFor (d.channels.getD k default).name P d.channels).foldl
              Channel.multiplyWith (d.channels.getD k default)).data.length ≤ i := by
            rw [foldl_multiplyWith_length]
            omega
          have hl2 : ((alphasFor (d.channels.getD k default).name P d.channels).foldl
              Channel.divideBy ((alphasFor (d.channels.getD k default).name P
                d.channels).foldl Channel.multiplyWith (d.channels.getD k default))).data.length
              ≤ i := by
            rw [foldl_divideBy_length, foldl_multiplyWith_length]
            omega
          rw [List.getD_eq_default _ _ hl2, List.getD_eq_default _ _ (by omega)]
    · have hlen₂ : (applyOps Channel.divideBy P
          (applyOps Channel.multiplyWith P d.channels)).length = d.channels.length := by
        rw [applyOps_length Channel.divideBy divideBy_name_eq,
          applyOps_length Channel.multiplyWith multiplyWith_name_eq]
      rw [show (applyOps Channel.divideBy P
            (applyOps Channel.multiplyWith P d.channels)).getD k default = default from
          List.getD_eq_default _ _ (by omega),
        show d.channels.getD k default = default from
          List.getD_eq_default _ _ (by omega)]

/-- Witness for C5's amended theorem: one root layer, R = 3, A = 2. -/
theorem c5_alpha_roundtrip_amended_witness :
    ∃ d₁ d₂,
      (⟨[⟨['R'], 1, 1, [3]⟩, ⟨['A'], 1, 1, [2]⟩], [[]],
        rectOfSize ⟨1, 1⟩, rectOfSize ⟨1, 1⟩, false, []⟩ : ImageData).multiplyAlpha =
        .ok d₁ ∧
      d₁.unmultiplyAlpha = .ok d₂ ∧
      (d₂.channels.getD 0 default).data.getD 0 0 =
        ((⟨[⟨['R'], 1, 1, [3]⟩, ⟨['A'], 1, 1, [2]⟩], [[]],
          rectOfSize ⟨1, 1⟩, rectOfSize ⟨1, 1⟩, false, []⟩ : ImageData).channels.getD 0
            default).data.getD 0 0 := by
  apply c5_alpha_roundtrip_amended _ rfl (by decide) 0 0
  intro p hp hpn α hα _
  have hps : p = (['R'], ['A']) := by
    have : p ∈ [((['R'] : TevName), (['A'] : TevName))] := hp
    simpa using this
  rw [hps] at hα
  have hfind : (⟨[⟨['R'], 1, 1, [3]⟩, ⟨['A'], 1, 1, [2]⟩], [[]],
      rectOfSize ⟨1, 1⟩, rectOfSize ⟨1, 1⟩, false, []⟩ : ImageData).channels.find?
      (fun c => c.name == (['R'], (['A'] : TevName)).2) = some ⟨['A'], 1, 1, [2]⟩ := rfl
  rw [hfind] at hα
  have hα2 : α = ⟨['A'], 1, 1, [2]⟩ := (Option.some.inj hα).symm
  rw [hα2]
  norm_num

/-- The C5 counterexample image: layer names `foo` and `foo.` coexist, so
the channel `foo.A` is both the alpha of layer `foo` and a plain
multiplication target of layer `foo.` (whose alpha is `foo..A`). -/
def dC5cex : ImageData :=
  ⟨[⟨['f', 'o', 'o', '.', '.', 'A'], 1, 1, [2]⟩,
    ⟨['f', 'o', 'o', '.', 'A'], 1, 1, [1]⟩,
    ⟨['f', 'o', 'o', '.', 'R'], 1, 1, [1]⟩],
   [['f', 'o', 'o'], ['f', 'o', 'o', '.']],
   rectOfSize ⟨1, 1⟩, rectOfSize ⟨1, 1⟩, false, []⟩

theorem multiplyWith_single (n m : TevName) (w h w2 h2 : Nat) (x y : ℚ) :
    (Channel.multiplyWith ⟨n, w, h, [x]⟩ ⟨m, w2, h2, [y]⟩) = ⟨n, w, h, [x * y]⟩ := by
  have hr : List.range 1 = [0] := rfl
  simp [Channel.multiplyWith, hr]

theorem divideBy_single (n m : TevName) (w h w2 h2 : Nat) (x y : ℚ) (hy : y ≠ 0) :
    (Channel.divideBy ⟨n, w, h, [x]⟩ ⟨m, w2, h2, [y]⟩) = ⟨n, w, h, [x / y]⟩ := by
  have hr : List.range 1 = [0] := rfl
  simp [Channel.divideBy, hr, hy]

/-- C5 counterexample: the claim quantifies over *every* ImageData with
`hasPremultipliedAlpha = false`, but on `dC5cex` — where every alpha value
is nonzero everywhere, so the claim's proviso holds — the round trip does
not restore the non-alpha channel `foo.R`: it starts at 1 and ends at 1/2.
The asymmetry: `multiplyAlpha` multiplies `foo.R` by the *already
premultiplied* `foo.A` while `unmultiplyAlpha` divides by the *already
restored* `foo.A`. -/
theorem c5_alpha_roundtrip_counterexample :
    dC5cex.hasPremultipliedAlpha = false ∧
    (dC5cex.channels.getD 2 default).name = ['f', 'o', 'o', '.', 'R'] ∧
    (dC5cex.channels.getD 2 default).data.getD 0 0 = 1 ∧
    (dC5cex.channels.getD 0 default).data.getD 0 0 = 2 ∧
    (dC5cex.channels.getD 1 default).data.getD 0 0 = 1 ∧
    (dC5cex.multiplyAlpha.bind ImageData.unmultiplyAlpha).map
      (fun d => (d.channels.getD 2 default).data.getD 0 0) = .ok (1 / 2 : ℚ) ∧
    (1 / 2 : ℚ) ≠ 1 := by
  refine ⟨rfl, rfl, rfl, rfl, rfl, ?_, by norm_num⟩
  have hstep : dC5cex.multiplyAlpha.bind ImageData.unmultiplyAlpha =
      Except.ok
        ⟨[⟨['f', 'o', 'o', '.', '.', 'A'], 1, 1, [2]⟩,
          (Channel.multiplyWith ⟨['f', 'o', 'o', '.', 'A'], 1, 1, [1]⟩
              ⟨['f', 'o', 'o', '.', '.', 'A'], 1, 1, [2]⟩).divideBy
            ⟨['f', 'o', 'o', '.', '.', 'A'], 1, 1, [2]⟩,
          ((Channel.multiplyWith
                (Channel.multiplyWith ⟨['f', 'o', 'o', '.', 'R'], 1, 1, [1]⟩
                  ⟨['f', 'o', 'o', '.', 'A'], 1, 1, [1]⟩)
                ⟨['f', 'o', 'o', '.', '.', 'A'], 1, 1, [2]⟩).divideBy
              (Channel.multiplyWith ⟨['f', 'o', 'o', '.', 'A'], 1, 1, [1]⟩
                ⟨['f', 'o', 'o', '.', '.', 'A'], 1, 1, [2]⟩)).divideBy
            ⟨['f', 'o', 'o', '.', '.', 'A'], 1, 1, [2]⟩],
         [['f', 'o', 'o'], ['f', 'o', 'o', '.']],
         rectOfSize ⟨1, 1⟩, rectOfSize ⟨1, 1⟩, false, []⟩ := by rfl
  rw [hstep]
  show Except.ok _ = _
  congr 1
  rw [multiplyWith_single, multiplyWith_single]
  norm_num
  rw [multiplyWith_single]
  norm_num
  rw [divideBy_single _ _ _ _ _ _ 2 2 (by norm_num)]
  norm_num
  rw [divideBy_single _ _ _ _ _ _ 1 2 (by norm_num)]
  norm_num

end Tev
